import Mathlib

/-!
# Message-queue client: queue, request and client operations

A shallow embedding of `src/src/queue.c`, `src/src/request.c` and
`src/src/client.c`.

* A C string is the list of its characters before the terminating NUL; a
  nullable `char *` is an `Option CString`.
* `Request` objects live in a heap of cells addressed by natural numbers; a
  `Request *` is an `Option Ptr` (`none` is `NULL`). `calloc` of a `Request`
  hands out a cell never used before and does not fail; `calloc` of a message
  body, whose size the peer declares, is granted up to a size `room` chosen by
  the environment in each puller iteration.
* A `Queue` is the record of `head`, `tail` and `size`; its lock and condition
  variables appear as the atomicity of `queue_push` / `queue_pop` and as the
  `blocked` result of `queue_pop`.
* `size_t size` is a natural number: the requests of a queue are distinct live
  objects, so their count stays below `2 ^ 64` and `size++` cannot wrap.
* A call returns `Res α`: its result, or `blocked` when it waits on a condition
  variable, or `fault` when it dereferences a null or dangling pointer, writes
  past a `char [BUFSIZ]` array, or converts a number that does not fit
  `unsigned long` (64 bits).
* `BUFSIZ`, `NI_MAXHOST` and `NI_MAXSERV` come from system headers and are
  parameters of the functions that use them.
* A connection is the result of `socket_connect`: `none` when it fails,
  otherwise the bytes the peer will send; what a worker writes on it is
  returned with the new state.
-/

namespace MQ

/-! ## Data model -/

/-- Address of a heap cell. -/
abbrev Ptr := Nat

/-- Contents of a NUL-terminated character array, terminator excluded. -/
abbrev CString := List Char

/-- Record `struct Request`: three owned strings and the intrusive link. -/
structure Request where
  method : Option CString
  uri : Option CString
  body : Option CString
  next : Option Ptr
deriving DecidableEq, Repr

/-- Heap of request cells: cell `p` is `some r` while allocated, `none` once freed;
addresses at or beyond the length have never been handed out. -/
abbrev Heap := List (Option Request)

/-- Record `struct Queue` (lock and condition variables are not data). -/
structure Queue where
  head : Option Ptr
  tail : Option Ptr
  size : Nat
deriving DecidableEq, Repr

/-- Why a call does not return: it waits on a condition variable, or it
dereferences a null or dangling pointer (or overruns a buffer). -/
inductive Stuck where
  | blocked : Stuck
  | fault : Stuck
deriving DecidableEq, Repr

/-- Outcome of a call: a returned value or the reason it does not return. -/
abbrev Res (α : Type) := Except Stuck α

/-! ## Heap access -/

/-- Read the cell `*p`. -/
def deref (h : Heap) (p : Ptr) : Option Request :=
  match h[p]? with
  | some (some r) => some r
  | _ => none

/-- Overwrite the cell `*p`. -/
def store (h : Heap) (p : Ptr) (r : Request) : Heap :=
  h.set p (some r)

/-- Library `calloc(1, sizeof(Request))`: a zeroed cell at an address never used before. -/
def calloc (h : Heap) : Heap × Option Ptr :=
  (h ++ [some ⟨none, none, none, none⟩], some h.length)

/-- Library `free`. -/
def free (h : Heap) (p : Ptr) : Heap :=
  h.set p none

/-! ## queue.c -/

/-- Function `queue_create`: a zeroed queue with `size = 0`. -/
def queue_create : Queue :=
  { head := none, tail := none, size := 0 }

/-- Function `queue_push`: clear `r->next`, link `r` behind the tail (or make it
the head when `size == 0`), set the tail, increment the size. -/
def queue_push (h : Heap) (q : Queue) (r : Option Ptr) : Res (Heap × Queue) :=
  match r with
  | none => .error .fault
  | some p =>
    match deref h p with
    | none => .error .fault
    | some rq =>
      let h1 := store h p { rq with next := none }
      if q.size = 0 then
        .ok (h1, { head := some p, tail := some p, size := q.size + 1 })
      else
        match q.tail with
        | none => .error .fault
        | some t =>
          match deref h1 t with
          | none => .error .fault
          | some tq =>
            .ok (store h1 t { tq with next := some p },
                 { head := q.head, tail := some p, size := q.size + 1 })

/-- Function `queue_pop`: wait while `size == 0`; return the head and advance it
(three cases on `size`), decrement the size. -/
def queue_pop (h : Heap) (q : Queue) : Res (Queue × Option Ptr) :=
  if q.size = 0 then .error .blocked
  else
    let temp := q.head
    if q.size = 1 then
      .ok ({ head := none, tail := none, size := q.size - 1 }, temp)
    else if q.size = 2 then
      .ok ({ head := q.tail, tail := q.tail, size := q.size - 1 }, temp)
    else
      match q.head with
      | none => .error .fault
      | some hd =>
        match deref h hd with
        | none => .error .fault
        | some hq => .ok ({ head := hq.next, tail := q.tail, size := q.size - 1 }, temp)

/-! ## request.c -/

/-- Function `request_create`: a zeroed cell, then copies of the non-null strings. -/
def request_create (h : Heap) (method uri body : Option CString) : Heap × Option Ptr :=
  match calloc h with
  | (h1, none) => (h1, none)
  | (h1, some p) =>
    let r0 : Request := ⟨none, none, none, none⟩
    let r1 := match method with
      | some m => { r0 with method := some m }
      | none => r0
    let r2 := match uri with
      | some u => { r1 with uri := some u }
      | none => r1
    let r3 := match body with
      | some b => { r2 with body := some b }
      | none => r2
    (store h1 p r3, some p)

/-- Function `request_delete`: free the request unless the pointer is null. -/
def request_delete (h : Heap) (r : Option Ptr) : Heap :=
  match r with
  | some p => free h p
  | none => h

/-- Conversion `%zu`: the decimal digits of a size. -/
def decimal (n : Nat) : CString :=
  Nat.toDigits 10 n

/-- Function `request_write`: nothing when the stream or the request is null;
otherwise the request line, the `Content-Length` header when there is a body,
the blank line, and the body. `fs` is the bytes written to the stream so far. -/
def request_write (h : Heap) (r : Option Ptr) (fs : Option (List Char)) :
    Res (Option (List Char)) :=
  match fs, r with
  | none, _ => .ok fs
  | _, none => .ok fs
  | some out, some p =>
    match deref h p with
    | none => .error .fault
    | some rq =>
      match rq.method, rq.uri with
      | some m, some u =>
        match rq.body with
        | some b =>
          .ok (some (out ++ (m ++ " ".toList ++ u ++ " HTTP/1.0\r\nContent-Length: ".toList
                ++ decimal b.length ++ "\r\n\r\n".toList ++ b)))
        | none =>
          .ok (some (out ++ (m ++ " ".toList ++ u ++ " HTTP/1.0\r\n\r\n".toList)))
      | _, _ => .error .fault

/-! ## client.c -/

/-- Constant `SENTINEL`. -/
def SENTINEL : CString := "SHUTDOWN".toList

/-- Record `struct MessageQueue` (declared in `mq/client.h`): the three strings,
the two queues and the shutdown flag; lock and thread handles are not data. -/
structure MessageQueue where
  name : CString
  host : CString
  port : CString
  outgoing : Queue
  incoming : Queue
  shutdown : Bool
deriving DecidableEq, Repr

/-- Call `sprintf(uri, ...)` into `char uri[BUFSIZ]`: the formatted text and its
terminator must fit the array. -/
def sprintf (BUFSIZ : Nat) (text : CString) : Res CString :=
  if text.length + 1 ≤ BUFSIZ then .ok text else .error .fault

/-- Function `mq_create`: each string is copied when shorter than its limit and
left empty otherwise; two empty queues; `shutdown = false`. -/
def mq_create (NI_MAXHOST NI_MAXSERV : Nat) (name host port : CString) : MessageQueue :=
  { name := if name.length < NI_MAXHOST then name else [],
    host := if host.length < NI_MAXHOST then host else [],
    port := if port.length < NI_MAXSERV then port else [],
    outgoing := queue_create,
    incoming := queue_create,
    shutdown := false }

/-- Function `mq_publish`: push `PUT /topic/$TOPIC` with the body on `outgoing`. -/
def mq_publish (BUFSIZ : Nat) (h : Heap) (mq : MessageQueue) (topic : CString)
    (body : Option CString) : Res (Heap × MessageQueue) :=
  match sprintf BUFSIZ ("/topic/".toList ++ topic) with
  | .error e => .error e
  | .ok uri =>
    match request_create h (some "PUT".toList) (some uri) body with
    | (h1, r) =>
      match queue_push h1 mq.outgoing r with
      | .error e => .error e
      | .ok (h2, q) => .ok (h2, { mq with outgoing := q })

/-- Function `mq_retrieve`: pop from `incoming`, copy the body, delete the
request; `none` (NULL) when the body is the sentinel. -/
def mq_retrieve (h : Heap) (mq : MessageQueue) :
    Res (Heap × MessageQueue × Option CString) :=
  match queue_pop h mq.incoming with
  | .error e => .error e
  | .ok (q, r) =>
    match r with
    | none => .error .fault
    | some p =>
      match deref h p with
      | none => .error .fault
      | some rq =>
        match rq.body with
        | none => .error .fault
        | some temp =>
          let h1 := request_delete h r
          if temp = SENTINEL then .ok (h1, { mq with incoming := q }, none)
          else .ok (h1, { mq with incoming := q }, some temp)

/-- Function `mq_subscribe`: push body-less `PUT /subscription/$QUEUE/$TOPIC`. -/
def mq_subscribe (BUFSIZ : Nat) (h : Heap) (mq : MessageQueue) (topic : CString) :
    Res (Heap × MessageQueue) :=
  match sprintf BUFSIZ ("/subscription/".toList ++ mq.name ++ "/".toList ++ topic) with
  | .error e => .error e
  | .ok uri =>
    match request_create h (some "PUT".toList) (some uri) none with
    | (h1, r) =>
      match queue_push h1 mq.outgoing r with
      | .error e => .error e
      | .ok (h2, q) => .ok (h2, { mq with outgoing := q })

/-- Function `mq_unsubscribe`: push body-less `DELETE /subscription/$QUEUE/$TOPIC`. -/
def mq_unsubscribe (BUFSIZ : Nat) (h : Heap) (mq : MessageQueue) (topic : CString) :
    Res (Heap × MessageQueue) :=
  match sprintf BUFSIZ ("/subscription/".toList ++ mq.name ++ "/".toList ++ topic) with
  | .error e => .error e
  | .ok uri =>
    match request_create h (some "DELETE".toList) (some uri) none with
    | (h1, r) =>
      match queue_push h1 mq.outgoing r with
      | .error e => .error e
      | .ok (h2, q) => .ok (h2, { mq with outgoing := q })

/-- Function `mq_stop` up to the two `thread_join` calls: set the shutdown flag,
then publish the sentinel on the sentinel topic. -/
def mq_stop (BUFSIZ : Nat) (h : Heap) (mq : MessageQueue) : Res (Heap × MessageQueue) :=
  let mq1 := { mq with shutdown := true }
  mq_publish BUFSIZ h mq1 SENTINEL (some SENTINEL)

/-- Function `mq_shutdown`: read the flag. -/
def mq_shutdown (mq : MessageQueue) : Bool :=
  mq.shutdown

/-! ## Library calls of the worker loops -/

/-- View of a character array as a C string: the characters before the first NUL. -/
def cstr (buf : List Char) : CString :=
  buf.takeWhile (fun c => c ≠ '\x00')

/-- Read at most `n` characters, stopping after a newline; the characters read
and the rest of the stream. -/
def readLine : Nat → List Char → List Char × List Char
  | 0, s => ([], s)
  | _ + 1, [] => ([], [])
  | n + 1, c :: s =>
    if c = '\n' then ([c], s) else (c :: (readLine n s).1, (readLine n s).2)

/-- Library `fgets(buffer, size, fs)` on a stream with `inp` left to read:
`none` (NULL) at end of stream, otherwise the buffer and the rest of the stream. -/
def fgets (size : Nat) (inp : List Char) : Option (List Char × List Char) :=
  match inp with
  | [] => none
  | _ :: _ => some (readLine (size - 1) inp)

/-- Library `strstr`: the first suffix of `hay` that starts with `needle`. -/
def strstr : CString → CString → Option CString
  | [], needle => if needle = [] then some [] else none
  | c :: hay, needle =>
    if needle.isPrefixOf (c :: hay) then some (c :: hay) else strstr hay needle

/-- Library `isspace` in the C locale. -/
def isspace (c : Char) : Bool :=
  c = ' ' || c = '\t' || c = '\n' || c = '\x0b' || c = '\x0c' || c = '\r'

/-- Ordinary characters of a `scanf` format: each must equal the next input
character; the input left after them. -/
def matchLiteral : CString → CString → Option CString
  | [], s => some s
  | _ :: _, [] => none
  | c :: cs, d :: s => if c = d then matchLiteral cs s else none

/-- Value of a string of decimal digits. -/
def digitsValue (ds : List Char) : Nat :=
  ds.foldl (fun a c => 10 * a + (c.toNat - '0'.toNat)) 0

/-- Call `sscanf(buffer, "Content-Length: %lu\r\n", &length)` on a 64-bit
`unsigned long`: the new value of `length`. The literal `Content-Length:` must
match exactly; the blank and `%lu` skip white space; `%lu` takes an optional
sign and at least one decimal digit; without a match `length` keeps its value.
A number that does not fit `unsigned long` is outside the defined behaviour. -/
def sscanf_content_length (buffer : CString) (length : Nat) : Res Nat :=
  match matchLiteral "Content-Length:".toList buffer with
  | none => .ok length
  | some rest =>
    let rest1 := rest.dropWhile isspace
    let neg := rest1.head? = some '-'
    let rest2 := if rest1.head? = some '-' ∨ rest1.head? = some '+' then rest1.tail else rest1
    let ds := rest2.takeWhile Char.isDigit
    if ds = [] then .ok length
    else if digitsValue ds < 2 ^ 64 then
      .ok (if neg then (2 ^ 64 - digitsValue ds) % 2 ^ 64 else digitsValue ds)
    else .error .fault

/-- Header loop of `mq_puller`:
`while (fgets(buffer, BUFSIZ, fs) && !streq(buffer, "\r\n")) sscanf(...)`.
Returns `length` and the rest of the stream. The first argument bounds the
number of iterations; the loop consumes a character per iteration when
`2 ≤ BUFSIZ`, so the stream length plus one is enough. -/
def read_headers (BUFSIZ : Nat) : Nat → List Char → Nat → Res (Nat × List Char)
  | 0, _, _ => .error .blocked
  | fuel + 1, inp, length =>
    match fgets BUFSIZ inp with
    | none => .ok (length, inp)
    | some (buffer, rest) =>
      if cstr buffer = "\r\n".toList then .ok (length, rest)
      else
        match sscanf_content_length (cstr buffer) length with
        | .error e => .error e
        | .ok length1 => read_headers BUFSIZ fuel rest length1

/-! ## Worker loops of client.c -/

/-- One iteration of the loop of `mq_pusher`, entered after `mq_shutdown`
returned false. `conn` is the result of `socket_connect`: `none` when it fails,
otherwise the bytes the peer sends on the connection. Returns the heap, the
client and the bytes written to the connection (`none` without a connection). -/
def mq_pusher_body (BUFSIZ : Nat) (h : Heap) (mq : MessageQueue)
    (conn : Option (List Char)) : Res (Heap × MessageQueue × Option (List Char)) :=
  match conn with
  | none => .ok (h, mq, none)
  | some resp =>
    match queue_pop h mq.outgoing with
    | .error e => .error e
    | .ok (q, r) =>
      match r with
      | none => .ok (h, { mq with outgoing := q }, some [])
      | some _ =>
        match request_write h r (some []) with
        | .error e => .error e
        | .ok fs =>
          let h1 := request_delete h r
          match fgets BUFSIZ resp with
          | none => .ok (h1, { mq with outgoing := q }, fs)
          | some (buffer, _) =>
            match strstr (cstr buffer) "200 OK".toList with
            | none => .ok (h1, { mq with outgoing := q }, fs)
            | some _ => .ok (h1, { mq with outgoing := q }, fs)

/-- One iteration of the loop of `mq_puller`, entered after `mq_shutdown`
returned false; `conn` and the result are as for `mq_pusher_body`. `room` is the
largest size that `calloc` grants for the body in this iteration: the size
`length + 1` is declared by the peer, and the code passes the result of
`calloc(1, length + 1)` to `fread` unchecked. When `calloc` returns NULL, or
when `length + 1` wraps to 0, `fread` is handed a pointer that cannot take the
bytes, which is a fault. -/
def mq_puller_body (BUFSIZ : Nat) (h : Heap) (mq : MessageQueue)
    (conn : Option (List Char)) (room : Nat) :
    Res (Heap × MessageQueue × Option (List Char)) :=
  match conn with
  | none => .ok (h, mq, none)
  | some resp =>
    match sprintf BUFSIZ ("/queue/".toList ++ mq.name) with
    | .error e => .error e
    | .ok uri =>
      match request_create h (some "GET".toList) (some uri) none with
      | (h1, r) =>
        match request_write h1 r (some []) with
        | .error e => .error e
        | .ok fs =>
          match fgets BUFSIZ resp with
          | none => .ok (h1, mq, fs)
          | some (buffer, rest) =>
            match strstr (cstr buffer) "200 OK".toList with
            | none => .ok (h1, mq, fs)
            | some _ =>
              match read_headers BUFSIZ (rest.length + 1) rest 0 with
              | .error e => .error e
              | .ok (length, rest1) =>
                match r with
                | none => .error .fault
                | some p =>
                  match deref h1 p with
                  | none => .error .fault
                  | some rq =>
                    if length + 1 < 2 ^ 64 ∧ length + 1 ≤ room then
                      let h2 := store h1 p { rq with body := some (cstr (rest1.take length)) }
                      match queue_push h2 mq.incoming r with
                      | .error e => .error e
                      | .ok (h3, q) => .ok (h3, { mq with incoming := q }, fs)
                    else .error .fault

/-! ## Example state -/

/-- A heap with one queued publish request (cell 0) and one delivered message (cell 1). -/
def demoHeap : Heap :=
  [some ⟨some "PUT".toList, some "/topic/x".toList, some "hi".toList, none⟩,
   some ⟨some "GET".toList, some "/queue/alice".toList, some "hello".toList, none⟩]

/-- A running client over `demoHeap`: cell 0 in `outgoing`, cell 1 in `incoming`. -/
def demoClient : MessageQueue :=
  { name := "alice".toList, host := "localhost".toList, port := "9620".toList,
    outgoing := ⟨some 0, some 0, 1⟩, incoming := ⟨some 1, some 1, 1⟩, shutdown := false }

/-- A client as `mq_create` returns it on a glibc system. -/
def freshClient : MessageQueue :=
  mq_create 1025 32 "alice".toList "localhost".toList "9620".toList

/-- Push the requests of a list in order. -/
def pushAll (h : Heap) (q : Queue) : List Ptr → Res (Heap × Queue)
  | [] => .ok (h, q)
  | p :: ps =>
    match queue_push h q (some p) with
    | .error e => .error e
    | .ok (h1, q1) => pushAll h1 q1 ps

/-- Pop `n` times, collecting the returned pointers in pop order. -/
def popN (h : Heap) (q : Queue) : Nat → Res (Queue × List (Option Ptr))
  | 0 => .ok (q, [])
  | n + 1 =>
    match queue_pop h q with
    | .error e => .error e
    | .ok (q1, r) =>
      match popN h q1 n with
      | .error e => .error e
      | .ok (q2, rs) => .ok (q2, r :: rs)

/-! ## Queue contents and representation -/

/-- Follow `next` links from `start` for at most `n` requests. -/
def walk (h : Heap) : Nat → Option Ptr → List Ptr
  | 0, _ => []
  | _ + 1, none => []
  | n + 1, some p =>
    p :: walk h n (match deref h p with
                   | some rq => rq.next
                   | none => none)

/-- The requests of a queue, head first, as found by following the links. -/
def contents (h : Heap) (q : Queue) : List Ptr :=
  walk h q.size q.head

/-- The `next` field of the cell `*p`, when the cell is live. -/
def nextOf (h : Heap) (p : Ptr) : Option (Option Ptr) :=
  (deref h p).map Request.next

/-- The cells of `l` are live and linked in list order, the last link null. -/
def linked (h : Heap) : List Ptr → Prop
  | [] => True
  | p :: ps => nextOf h p = some ps.head? ∧ linked h ps

/-- Decision procedure for `linked`. -/
instance linkedDecidable (h : Heap) : (l : List Ptr) → Decidable (linked h l)
  | [] => isTrue trivial
  | _ :: ps => @instDecidableAnd _ _ (inferInstance) (linkedDecidable h ps)

/-- Queue `q` holds exactly the distinct requests `l`, head first: the cells are
linked in that order, `size` is their number, `head` the first and `tail` the
last (both null when there is none). -/
def Holds (h : Heap) (q : Queue) (l : List Ptr) : Prop :=
  l.Nodup ∧ linked h l ∧ q.size = l.length ∧ q.head = l.head? ∧ q.tail = l.getLast?

/-- Decision procedure for `Holds`. -/
instance holdsDecidable (h : Heap) (q : Queue) (l : List Ptr) : Decidable (Holds h q l) :=
  instDecidableAnd

/-- The strings of a cell, which no queue operation changes. -/
def payload (r : Request) : Option CString × Option CString × Option CString :=
  (r.method, r.uri, r.body)

/-- Wire format of a request with method `m`, URI `u` and optional body: the
request line, the `Content-Length` header when there is a body, the blank
line, and the body. -/
def wire (m u : CString) (body : Option CString) : List Char :=
  match body with
  | some b => m ++ " ".toList ++ u ++ " HTTP/1.0\r\nContent-Length: ".toList
      ++ decimal b.length ++ "\r\n\r\n".toList ++ b
  | none => m ++ " ".toList ++ u ++ " HTTP/1.0\r\n\r\n".toList

/-- Text made of the given lines, each followed by a newline. -/
def unlines : List (List Char) → List Char
  | [] => []
  | l :: ls => l ++ '\n' :: unlines ls

/-- A response line (newline excluded) that one `fgets` into `char buffer[BUFSIZ]`
reads whole and that holds no NUL. -/
def PlainLine (BUFSIZ : Nat) (l : List Char) : Prop :=
  '\n' ∉ l ∧ '\x00' ∉ l ∧ l.length + 2 ≤ BUFSIZ

/-- A header line other than the blank line and not starting with `Content-Length:`. -/
def OtherHeader (BUFSIZ : Nat) (l : List Char) : Prop :=
  PlainLine BUFSIZ l ∧ l ≠ ['\r'] ∧ ¬ "Content-Length:".toList <+: l

/-- Bodies of the requests in `incoming`, head first. -/
def incomingBodies (h : Heap) (mq : MessageQueue) : List (Option CString) :=
  (contents h mq.incoming).map (fun p => (deref h p).bind Request.body)

/-- Decision procedure for `PlainLine`. -/
instance plainLineDecidable (BUFSIZ : Nat) (l : List Char) : Decidable (PlainLine BUFSIZ l) :=
  instDecidableAnd

/-- Decision procedure for `OtherHeader`. -/
instance otherHeaderDecidable (BUFSIZ : Nat) (l : List Char) :
    Decidable (OtherHeader BUFSIZ l) :=
  instDecidableAnd

/-! ## Threads sharing one queue

`queue_push` and `queue_pop` run between `mutex_lock` and `mutex_unlock` of the
queue, so an execution of several threads is a sequence of whole calls. A
`queue_pop` that finds `size == 0` waits in `cond_wait` and checks again when
it runs next. -/

/-- A scheduled action of a thread: a producer's call `queue_push(q, r)`, or a
consumer running its call of `queue_pop(q)`. -/
inductive QEvent where
  | push (thread : Nat) (r : Ptr) : QEvent
  | pop (thread : Nat) : QEvent
deriving DecidableEq, Repr

/-- Run a schedule on the shared queue. The log lists, in order of return, the
thread of each `queue_pop` call that returned and the pointer it returned. A
`pop` scheduled on the empty queue leaves that consumer waiting. -/
def runQueue (h : Heap) (q : Queue) : List QEvent → Res (Heap × Queue × List (Nat × Option Ptr))
  | [] => .ok (h, q, [])
  | .push _ r :: es =>
    match queue_push h q (some r) with
    | .error e => .error e
    | .ok (h1, q1) => runQueue h1 q1 es
  | .pop t :: es =>
    match queue_pop h q with
    | .error .blocked => runQueue h q es
    | .error .fault => .error .fault
    | .ok (q1, r) =>
      match runQueue h q1 es with
      | .error e => .error e
      | .ok (h2, q2, log) => .ok (h2, q2, (t, r) :: log)

/-- The pushes of a schedule, in order: producer thread and request. -/
def pushes : List QEvent → List (Nat × Ptr)
  | [] => []
  | .push t r :: es => (t, r) :: pushes es
  | .pop _ :: es => pushes es

/-- The consumer threads of the `pop` actions of a schedule, in order. -/
def popThreads : List QEvent → List Nat
  | [] => []
  | .push _ _ :: es => popThreads es
  | .pop t :: es => t :: popThreads es

/-- Number of requests a FIFO queue holds after a schedule when it held `n`
before: a push adds one, a pop takes one unless there is none. A schedule with
`pending 0 sched = 0` is one in which the consumers pop until the queue is
empty. -/
def pending : Nat → List QEvent → Nat
  | n, [] => n
  | n, .push _ _ :: es => pending (n + 1) es
  | n, .pop _ :: es => pending (n - 1) es

/-! ## The running client

The application threads, the pusher, the puller and the transport as one
transition system. Each step is one call or one loop iteration; the shared data
(the two queues and the flag) are only touched under their locks, inside
`queue_push`, `queue_pop`, `mq_stop` and `mq_shutdown`. -/

/-- Progress of the thread that calls `mq_stop`. -/
inductive AppPc where
  | running : AppPc
  | flagSet : AppPc
  | sentinelQueued : AppPc
  | pusherJoined : AppPc
  | stopped : AppPc
deriving DecidableEq, Repr

/-- Position of a worker thread: about to evaluate `!mq_shutdown(mq)`, inside
the loop body, or returned. -/
inductive WorkerPc where
  | top : WorkerPc
  | body : WorkerPc
  | done : WorkerPc
deriving DecidableEq, Repr

/-- The two worker threads. -/
inductive Worker where
  | pusher : Worker
  | puller : Worker
deriving DecidableEq, Repr

/-- State of a started client and of the transport: `received` lists, oldest
first, the bytes the transport received on each connection and the worker
that opened it. -/
structure Sys where
  heap : Heap
  mq : MessageQueue
  app : AppPc
  pusher : WorkerPc
  puller : WorkerPc
  received : List (Worker × List Char)
deriving DecidableEq, Repr

/-- One step of the running client. For the worker bodies `conn` is the result
of `socket_connect`, chosen by the transport; for the puller `room` is the
largest body size that `calloc` grants in that iteration. -/
inductive Label where
  | publish (topic : CString) (body : Option CString) : Label
  | subscribe (topic : CString) : Label
  | unsubscribe (topic : CString) : Label
  | retrieve : Label
  | stopFlag : Label
  | stopPublish : Label
  | joinPusher : Label
  | joinPuller : Label
  | pusherTest : Label
  | pusherBody (conn : Option (List Char)) : Label
  | pullerTest : Label
  | pullerBody (conn : Option (List Char)) (room : Nat) : Label
deriving DecidableEq, Repr

/-- Entry of `received` for the bytes a worker wrote on a connection. -/
def logged (w : Worker) (out : Option (List Char)) : List (Worker × List Char) :=
  match out with
  | some bytes => [(w, bytes)]
  | none => []

/-- The step function: `none` when the step cannot complete in this state (the
call waits, the thread is elsewhere, or the call faults).
* `publish`, `subscribe`, `unsubscribe`, `retrieve`: a call by an application thread;
* `stopFlag`, `stopPublish`, `joinPusher`, `joinPuller`: the four parts of `mq_stop`;
* `pusherTest`, `pullerTest`: the loop condition `!mq_shutdown(mq)`;
* `pusherBody`, `pullerBody`: one iteration of the loop body. -/
def step (BUFSIZ : Nat) (s : Sys) : Label → Option Sys
  | .publish topic body =>
    match mq_publish BUFSIZ s.heap s.mq topic body with
    | .ok (h, mq) => some { s with heap := h, mq := mq }
    | .error _ => none
  | .subscribe topic =>
    match mq_subscribe BUFSIZ s.heap s.mq topic with
    | .ok (h, mq) => some { s with heap := h, mq := mq }
    | .error _ => none
  | .unsubscribe topic =>
    match mq_unsubscribe BUFSIZ s.heap s.mq topic with
    | .ok (h, mq) => some { s with heap := h, mq := mq }
    | .error _ => none
  | .retrieve =>
    match mq_retrieve s.heap s.mq with
    | .ok (h, mq, _) => some { s with heap := h, mq := mq }
    | .error _ => none
  | .stopFlag =>
    if s.app = .running then
      some { s with mq := { s.mq with shutdown := true }, app := .flagSet }
    else none
  | .stopPublish =>
    if s.app = .flagSet then
      match mq_publish BUFSIZ s.heap s.mq SENTINEL (some SENTINEL) with
      | .ok (h, mq) => some { s with heap := h, mq := mq, app := .sentinelQueued }
      | .error _ => none
    else none
  | .joinPusher =>
    if s.app = .sentinelQueued ∧ s.pusher = .done then some { s with app := .pusherJoined }
    else none
  | .joinPuller =>
    if s.app = .pusherJoined ∧ s.puller = .done then some { s with app := .stopped }
    else none
  | .pusherTest =>
    if s.pusher = .top then
      some { s with pusher := if mq_shutdown s.mq then .done else .body }
    else none
  | .pusherBody conn =>
    if s.pusher = .body then
      match mq_pusher_body BUFSIZ s.heap s.mq conn with
      | .ok (h, mq, out) =>
        some { s with heap := h, mq := mq, pusher := .top,
                      received := s.received ++ logged .pusher out }
      | .error _ => none
    else none
  | .pullerTest =>
    if s.puller = .top then
      some { s with puller := if mq_shutdown s.mq then .done else .body }
    else none
  | .pullerBody conn room =>
    if s.puller = .body then
      match mq_puller_body BUFSIZ s.heap s.mq conn room with
      | .ok (h, mq, out) =>
        some { s with heap := h, mq := mq, puller := .top,
                      received := s.received ++ logged .puller out }
      | .error _ => none
    else none

/-- Run a sequence of steps. -/
def run (BUFSIZ : Nat) (s : Sys) : List Label → Option Sys
  | [] => some s
  | a :: as =>
    match step BUFSIZ s a with
    | some s1 => run BUFSIZ s1 as
    | none => none

/-- The bytes received on the connections of worker `w`, oldest first. -/
def receivedFrom (w : Worker) (s : Sys) : List (List Char) :=
  (s.received.filter (fun e => e.1 = w)).map Prod.snd

/-- The started client `alice` on an empty heap: the sentinel subscription in
`outgoing`, both workers at their loop test. -/
def demoSys : Sys :=
  { heap := [some ⟨some "PUT".toList, some "/subscription/alice/SHUTDOWN".toList, none, none⟩],
    mq := { name := "alice".toList, host := "localhost".toList, port := "9620".toList,
            outgoing := ⟨some 0, some 0, 1⟩, incoming := ⟨none, none, 0⟩, shutdown := false },
    app := .running, pusher := .top, puller := .top, received := [] }

/-- The state after `schedUnsent`: `mq_stop` has returned, the transport received
only the subscription, the message and the sentinel are still in `outgoing`. -/
def demoUnsent : Sys :=
  { heap := [none,
      some ⟨some "PUT".toList, some "/topic/x".toList, some "payload".toList, some 2⟩,
      some ⟨some "PUT".toList, some "/topic/SHUTDOWN".toList, some "SHUTDOWN".toList, none⟩],
    mq := { name := "alice".toList, host := "localhost".toList, port := "9620".toList,
            outgoing := ⟨some 1, some 2, 2⟩, incoming := ⟨none, none, 0⟩, shutdown := true },
    app := .stopped, pusher := .done, puller := .done,
    received := [(.pusher, "PUT /subscription/alice/SHUTDOWN HTTP/1.0\r\n\r\n".toList)] }

/-- Queue well-formedness as the data model states it: `size == 0` exactly when
`head` and `tail` are both null; `size == 1` exactly when `head == tail` and
they are non-null; following `next` from `head` visits `size` live requests,
the last of which is `tail` and has a null `next`. -/
def WellFormed (h : Heap) (q : Queue) : Prop :=
  (q.size = 0 ↔ q.head = none ∧ q.tail = none) ∧
  (q.size = 1 ↔ q.head = q.tail ∧ q.head ≠ none) ∧
  (contents h q).length = q.size ∧
  linked h (contents h q) ∧
  (contents h q).getLast? = q.tail

/-- Decision procedure for `WellFormed`. -/
instance wellFormedDecidable (h : Heap) (q : Queue) : Decidable (WellFormed h q) :=
  instDecidableAnd

/-- Decidable equality of call outcomes. -/
instance resDecidableEq {α : Type} [DecidableEq α] : DecidableEq (Res α) := fun a b =>
  match a, b with
  | .ok x, .ok y =>
    if hxy : x = y then isTrue (congrArg Except.ok hxy)
    else isFalse (fun he => hxy (Except.ok.inj he))
  | .error x, .error y =>
    if hxy : x = y then isTrue (congrArg Except.error hxy)
    else isFalse (fun he => hxy (Except.error.inj he))
  | .ok _, .error _ => isFalse (fun he => nomatch he)
  | .error _, .ok _ => isFalse (fun he => nomatch he)

/-- Concatenation of the pieces of a stream. -/
def joined : List (List Char) → List Char
  | [] => []
  | c :: cs => c ++ joined cs

/-- What one `fgets(buffer, BUFSIZ, fs)` reads from a stream that goes on: a
non-empty piece without an inner newline that either ends with a newline and
fits the buffer, or fills the buffer (`BUFSIZ - 1` characters). A line of more
than `BUFSIZ - 1` characters is read as several chunks. -/
def Chunk (BUFSIZ : Nat) (c : List Char) : Prop :=
  c ≠ [] ∧ '\n' ∉ c.dropLast ∧ c.length + 1 ≤ BUFSIZ ∧
    (c.getLast? = some '\n' ∨ c.length + 1 = BUFSIZ)

/-- Decision procedure for `Chunk`. -/
instance chunkDecidable (BUFSIZ : Nat) (c : List Char) : Decidable (Chunk BUFSIZ c) :=
  instDecidableAnd

/-- A chunk of the header part: one that the header loop does not take for the
blank line. -/
def HeaderChunk (BUFSIZ : Nat) (c : List Char) : Prop :=
  Chunk BUFSIZ c ∧ cstr c ≠ "\r\n".toList

/-- Decision procedure for `HeaderChunk`. -/
instance headerChunkDecidable (BUFSIZ : Nat) (c : List Char) :
    Decidable (HeaderChunk BUFSIZ c) :=
  instDecidableAnd

/-- The C string `s` declares the length `n`: it starts with `Content-Length:`
spelled exactly so, followed by any white space, an optional `+`, and a decimal
numeral of value `n` that ends at the end of `s` or at a character that is not
a digit. -/
def Declares (s : CString) (n : Nat) : Prop :=
  ∃ ws sign ds trail, s = "Content-Length:".toList ++ ws ++ sign ++ ds ++ trail ∧
    (∀ c ∈ ws, isspace c = true) ∧ (sign = [] ∨ sign = ['+']) ∧ ds ≠ [] ∧
    (∀ c ∈ ds, c.isDigit = true) ∧ digitsValue ds = n ∧
    (∀ c, trail.head? = some c → c.isDigit = false)

/-- The `sscanf` call on the chunk `c` has defined behaviour: the chunk does not
declare a number beyond `unsigned long`. -/
def NoOverflow (c : List Char) : Prop :=
  (sscanf_content_length (cstr c) 0).isOk = true

/-- Decision procedure for `NoOverflow`. -/
instance noOverflowDecidable (c : List Char) : Decidable (NoOverflow c) :=
  inferInstanceAs (Decidable ((sscanf_content_length (cstr c) 0).isOk = true))

/-- The `sscanf` call on the chunk `c` leaves `length` at `n`: the chunk does not
start with `Content-Length:`, or no numeral follows, or the numeral is `n`. -/
def KeepsLength (n : Nat) (c : List Char) : Prop :=
  sscanf_content_length (cstr c) n = .ok n

/-- Decision procedure for `KeepsLength`. -/
instance keepsLengthDecidable (n : Nat) (c : List Char) : Decidable (KeepsLength n c) :=
  inferInstanceAs (Decidable (sscanf_content_length (cstr c) n = .ok n))

/-! ## Heap lemmas -/

theorem deref_lt {h : Heap} {p : Ptr} {r : Request} (hd : deref h p = some r) :
    p < h.length := by
  unfold deref at hd
  by_contra hlt
  have : h[p]? = none := List.getElem?_eq_none (Nat.le_of_not_lt hlt)
  simp [this] at hd

theorem deref_store_same {h : Heap} {p : Ptr} (r : Request) (hp : p < h.length) :
    deref (store h p r) p = some r := by
  simp [deref, store, List.getElem?_set, hp]

theorem deref_store_ne {h : Heap} {p p1 : Ptr} (r : Request) (hne : p ≠ p1) :
    deref (store h p r) p1 = deref h p1 := by
  simp [deref, store, List.getElem?_set, hne]

theorem deref_free_ne {h : Heap} {p p1 : Ptr} (hne : p ≠ p1) :
    deref (free h p) p1 = deref h p1 := by
  simp [deref, free, List.getElem?_set, hne]

theorem nextOf_store_ne {h : Heap} {p p1 : Ptr} (r : Request) (hne : p ≠ p1) :
    nextOf (store h p r) p1 = nextOf h p1 := by
  simp [nextOf, deref_store_ne r hne]

/-- Truth `linked` only reads the `next` fields of the listed cells. -/
theorem linked_congr {h h1 : Heap} {l : List Ptr}
    (hag : ∀ p ∈ l, nextOf h1 p = nextOf h p) (hl : linked h l) : linked h1 l := by
  induction l with
  | nil => trivial
  | cons p ps ih =>
    obtain ⟨h0, hrest⟩ := hl
    refine ⟨?_, ih (fun x hx => hag x (List.mem_cons_of_mem _ hx)) hrest⟩
    rw [hag p (List.mem_cons_self _ _)]
    exact h0

theorem linked_live {h : Heap} {l : List Ptr} (hl : linked h l) {p : Ptr} (hp : p ∈ l) :
    ∃ rq, deref h p = some rq := by
  induction l with
  | nil => cases hp
  | cons x xs ih =>
    obtain ⟨h0, hrest⟩ := hl
    rcases List.mem_cons.1 hp with rfl | hmem
    · unfold nextOf at h0
      cases hd : deref h p with
      | none => simp [hd] at h0
      | some rq => exact ⟨rq, rfl⟩
    · exact ih hrest hmem

/-- Following the links of a linked list of cells visits exactly that list. -/
theorem walk_linked {h : Heap} {l : List Ptr} (hl : linked h l) :
    walk h l.length l.head? = l := by
  induction l with
  | nil => rfl
  | cons p ps ih =>
    obtain ⟨h0, hrest⟩ := hl
    unfold nextOf at h0
    cases hd : deref h p with
    | none => simp [hd] at h0
    | some rq =>
      simp only [hd, Option.map_some', Option.some.injEq] at h0
      simp only [List.length_cons, List.head?_cons, walk, hd, h0]
      rw [ih hrest]

theorem contents_of_holds {h : Heap} {q : Queue} {l : List Ptr} (hq : Holds h q l) :
    contents h q = l := by
  obtain ⟨_, hl, hs, hh, _⟩ := hq
  unfold contents
  rw [hs, hh]
  exact walk_linked hl

/-! ## Queue lemmas -/

theorem payload_store_same {h : Heap} {p : Ptr} {rq : Request} (r : Request)
    (hd : deref h p = some rq) (hpay : payload r = payload rq) (x : Ptr) :
    (deref (store h p r) x).map payload = (deref h x).map payload := by
  by_cases hx : p = x
  · subst hx
    rw [deref_store_same r (deref_lt hd), hd]
    simp [hpay]
  · rw [deref_store_ne r hx]

theorem linked_snoc {h h1 : Heap} {l : List Ptr} {t p : Ptr} (hl : linked h l)
    (hnd : l.Nodup) (hlast : l.getLast? = some t)
    (hag : ∀ x ∈ l, x ≠ t → nextOf h1 x = nextOf h x)
    (ht : nextOf h1 t = some (some p)) (hp : nextOf h1 p = some none) :
    linked h1 (l ++ [p]) := by
  induction l with
  | nil => simp at hlast
  | cons x xs ih =>
    obtain ⟨h0, hrest⟩ := hl
    cases xs with
    | nil =>
      simp only [List.getLast?_singleton, Option.some.injEq] at hlast
      subst hlast
      exact ⟨ht, hp, trivial⟩
    | cons y ys =>
      have hlast1 : (y :: ys).getLast? = some t := by
        rw [List.getLast?_cons_cons] at hlast
        exact hlast
      have htmem : t ∈ y :: ys := List.mem_of_getLast?_eq_some hlast1
      have hxt : x ≠ t := by
        rintro rfl
        exact (List.nodup_cons.1 hnd).1 htmem
      refine ⟨?_, ih hrest (List.nodup_cons.1 hnd).2 hlast1
        (fun z hz hzt => hag z (List.mem_cons_of_mem _ hz) hzt)⟩
      rw [hag x (List.mem_cons_self _ _) hxt]
      exact h0

/-- Effect of `queue_push` on a well-formed queue: the request is appended, and
only the `next` fields of the old tail and of the request change. -/
theorem queue_push_holds {h : Heap} {q : Queue} {l : List Ptr} {p : Ptr} {rq : Request}
    (hq : Holds h q l) (hp : p ∉ l) (hd : deref h p = some rq) :
    ∃ h1 q1, queue_push h q (some p) = .ok (h1, q1) ∧ Holds h1 q1 (l ++ [p]) ∧
      h1.length = h.length ∧
      (∀ x, (deref h1 x).map payload = (deref h x).map payload) ∧
      (∀ x, x ∉ l → x ≠ p → deref h1 x = deref h x) := by
  obtain ⟨hnd, hl, hs, hh, ht⟩ := hq
  have hplt := deref_lt hd
  have hnd1 : (l ++ [p]).Nodup := by
    rw [List.nodup_append]
    refine ⟨hnd, List.nodup_singleton p, ?_⟩
    intro a ha hb
    rw [List.mem_singleton] at hb
    subst hb
    exact hp ha
  rcases List.eq_nil_or_concat l with hnil | ⟨l0, t, hcons⟩
  · subst hnil
    have hs0 : q.size = 0 := by simpa using hs
    refine ⟨store h p { rq with next := none },
      { head := some p, tail := some p, size := q.size + 1 }, ?_, ?_, ?_, ?_, ?_⟩
    · simp [queue_push, hd, hs0]
    · refine ⟨hnd1, ⟨?_, trivial⟩, by simp [hs0], rfl, rfl⟩
      simp [nextOf, deref_store_same _ hplt]
    · simp [store]
    · exact payload_store_same { rq with next := none } hd rfl
    · intro x _ hx
      exact deref_store_ne _ (Ne.symm hx)
  · have hlast : l.getLast? = some t := by simp [hcons]
    have htmem : t ∈ l := List.mem_of_getLast?_eq_some hlast
    have htp : p ≠ t := by
      rintro rfl
      exact hp htmem
    obtain ⟨tq, htq⟩ := linked_live hl htmem
    have hs0 : q.size ≠ 0 := by
      rw [hs, hcons]
      simp
    have htq1 : deref (store h p { rq with next := none }) t = some tq := by
      rw [deref_store_ne _ htp]
      exact htq
    have htlt := deref_lt htq1
    have hplt1 : p < (store h p { rq with next := none }).length := by
      simpa [store] using hplt
    refine ⟨store (store h p { rq with next := none }) t { tq with next := some p },
      { head := q.head, tail := some p, size := q.size + 1 }, ?_, ?_, ?_, ?_, ?_⟩
    · simp [queue_push, hd, hs0, ht, hlast, htq1]
    · refine ⟨hnd1, ?_, by simp [hs], ?_, by simp⟩
      · refine linked_snoc hl hnd hlast ?_ ?_ ?_
        · intro x hx hxt
          have hxp : p ≠ x := by
            rintro rfl
            exact hp hx
          rw [nextOf_store_ne _ (Ne.symm hxt), nextOf_store_ne _ hxp]
        · simp [nextOf, deref_store_same _ htlt]
        · rw [nextOf_store_ne _ (Ne.symm htp)]
          simp [nextOf, deref_store_same _ hplt]
      · rw [hh, hcons]
        cases l0 <;> simp
    · simp [store]
    · intro x
      rw [payload_store_same { tq with next := some p } htq1 rfl,
        payload_store_same { rq with next := none } hd rfl]
    · intro x hxl hxp
      have hxt : t ≠ x := by
        rintro rfl
        exact hxl htmem
      rw [deref_store_ne _ hxt, deref_store_ne _ (Ne.symm hxp)]

/-- Effect of `queue_pop` on a well-formed non-empty queue: it returns the first
request and keeps the others. -/
theorem queue_pop_holds {h : Heap} {q : Queue} {l : List Ptr} {p : Ptr}
    (hq : Holds h q (p :: l)) :
    ∃ q1, queue_pop h q = .ok (q1, some p) ∧ Holds h q1 l := by
  obtain ⟨hnd, hl, hs, hh, ht⟩ := hq
  obtain ⟨h0, hrest⟩ := hl
  have hnd1 := (List.nodup_cons.1 hnd).2
  simp only [List.head?_cons] at hh
  cases l with
  | nil =>
    have hs1 : q.size = 1 := by simpa using hs
    exact ⟨{ head := none, tail := none, size := q.size - 1 },
      by simp [queue_pop, hs1, hh], hnd1, trivial, by simp [hs1], rfl, rfl⟩
  | cons a l1 =>
    cases l1 with
    | nil =>
      have hs2 : q.size = 2 := by simpa using hs
      have ht2 : q.tail = some a := by simpa using ht
      exact ⟨{ head := q.tail, tail := q.tail, size := q.size - 1 },
        by simp [queue_pop, hs2, hh], hnd1, hrest, by simp [hs2], by simp [ht2],
        by simp [ht2]⟩
    | cons b l2 =>
      have hs3 : q.size = l2.length + 3 := by simpa using hs
      unfold nextOf at h0
      cases hdp : deref h p with
      | none => simp [hdp] at h0
      | some hq =>
        simp only [hdp, Option.map_some', Option.some.injEq, List.head?_cons] at h0
        refine ⟨{ head := hq.next, tail := q.tail, size := q.size - 1 }, ?_, hnd1, hrest, ?_,
          by simp [h0], ?_⟩
        · simp [queue_pop, hs3, hh, hdp]
        · simp [hs3]
        · rw [ht]
          simp [List.getLast?_cons_cons]

theorem holds_create (h : Heap) : Holds h queue_create [] :=
  ⟨List.nodup_nil, trivial, rfl, rfl, rfl⟩

theorem pushAll_holds (rs : List Ptr) : ∀ {h : Heap} {q : Queue} {l : List Ptr},
    Holds h q l → (l ++ rs).Nodup → (∀ p ∈ rs, (deref h p).isSome) →
    ∃ h1 q1, pushAll h q rs = .ok (h1, q1) ∧ Holds h1 q1 (l ++ rs) := by
  induction rs with
  | nil =>
    intro h q l hq _ _
    exact ⟨h, q, rfl, by simpa using hq⟩
  | cons p ps ih =>
    intro h q l hq hnd hlive
    have hpl : p ∉ l := by
      intro hmem
      exact (List.nodup_append.1 hnd).2.2 hmem (List.mem_cons_self _ _) 
    obtain ⟨rq, hrq⟩ := Option.isSome_iff_exists.1 (hlive p (List.mem_cons_self _ _))
    obtain ⟨h1, q1, hpush, hq1, _, hpay, _⟩ := queue_push_holds hq hpl hrq
    have hnd1 : ((l ++ [p]) ++ ps).Nodup := by simpa using hnd
    have hlive1 : ∀ x ∈ ps, (deref h1 x).isSome := by
      intro x hx
      have h2 := hlive x (List.mem_cons_of_mem _ hx)
      have h3 := hpay x
      cases hdx : deref h x with
      | none => simp [hdx] at h2
      | some r =>
        cases hdx1 : deref h1 x with
        | none => simp [hdx, hdx1] at h3
        | some r1 => rfl
    obtain ⟨h2, q2, hall, hq2⟩ := ih hq1 hnd1 hlive1
    refine ⟨h2, q2, ?_, by simpa using hq2⟩
    simp [pushAll, hpush, hall]

theorem popN_holds {h : Heap} (l1 l2 : List Ptr) : ∀ {q : Queue},
    Holds h q (l1 ++ l2) →
    ∃ q1, popN h q l1.length = .ok (q1, l1.map some) ∧ Holds h q1 l2 := by
  induction l1 with
  | nil =>
    intro q hq
    exact ⟨q, rfl, hq⟩
  | cons p ps ih =>
    intro q hq
    obtain ⟨q1, hpop, hq1⟩ := queue_pop_holds (l := ps ++ l2) hq
    obtain ⟨q2, hrest, hq2⟩ := ih hq1
    exact ⟨q2, by simp [popN, hpop, hrest], hq2⟩

theorem holds_nil_eq {h : Heap} {q : Queue} (hq : Holds h q []) : q = queue_create := by
  obtain ⟨_, _, hs, hh, ht⟩ := hq
  cases q
  simp_all [queue_create]

/-! ## C1: FIFO order -/

/-- C1: pushing pairwise distinct live requests `rs` in order on the empty queue
of `queue_create` and then popping `rs.length` times returns exactly `rs` in push
order and leaves the queue with `size = 0` and null `head` and `tail`. -/
theorem C1_push_then_pop_fifo (h : Heap) (rs : List Ptr) (hnd : rs.Nodup)
    (hlive : ∀ p ∈ rs, (deref h p).isSome) :
    ∃ h1 q1, pushAll h queue_create rs = .ok (h1, q1) ∧
      popN h1 q1 rs.length = .ok ({ head := none, tail := none, size := 0 }, rs.map some) := by
  obtain ⟨h1, q1, hpush, hq1⟩ :=
    pushAll_holds rs (holds_create h) (by simpa using hnd) hlive
  obtain ⟨q2, hpop, hq2⟩ := popN_holds rs [] (by simpa using hq1)
  have hq2c := holds_nil_eq hq2
  subst hq2c
  exact ⟨h1, q1, hpush, hpop⟩

/-- Witness for C1: three requests at addresses 0, 1, 2, pushed in the order 2, 0, 1. -/
theorem C1_push_then_pop_fifo_witness :
    ∃ h1 q1, pushAll [some ⟨none, none, none, none⟩, some ⟨none, none, none, some 0⟩,
        some ⟨none, none, none, none⟩] queue_create [2, 0, 1] = .ok (h1, q1) ∧
      popN h1 q1 [2, 0, 1].length
        = .ok ({ head := none, tail := none, size := 0 }, [2, 0, 1].map some) :=
  C1_push_then_pop_fifo _ [2, 0, 1] (by decide) (by decide)

/-! ## Allocation and enqueueing of a new request -/

theorem deref_append_old {h : Heap} (c : Option Request) {p : Ptr} (hp : p < h.length) :
    deref (h ++ [c]) p = deref h p := by
  simp [deref, List.getElem?_append_left hp]

theorem deref_append_new (h : Heap) (r : Request) :
    deref (h ++ [some r]) h.length = some r := by
  simp [deref]

theorem request_create_eq (h : Heap) (m u b : Option CString) :
    request_create h m u b = (h ++ [some ⟨m, u, b, none⟩], some h.length) := by
  cases m <;> cases u <;> cases b <;> simp [request_create, calloc, store]

theorem holds_lt {h : Heap} {q : Queue} {l : List Ptr} (hq : Holds h q l) :
    ∀ p ∈ l, p < h.length := by
  intro p hp
  obtain ⟨rq, hrq⟩ := linked_live hq.2.1 hp
  exact deref_lt hrq

theorem holds_append {h : Heap} {q : Queue} {l : List Ptr} (c : Option Request)
    (hq : Holds h q l) : Holds (h ++ [c]) q l := by
  refine ⟨hq.1, linked_congr ?_ hq.2.1, hq.2.2⟩
  intro p hp
  simp [nextOf, deref_append_old c (holds_lt hq p hp)]

theorem holds_free {h : Heap} {q : Queue} {l : List Ptr} {p : Ptr} (hp : p ∉ l)
    (hq : Holds h q l) : Holds (free h p) q l := by
  refine ⟨hq.1, linked_congr ?_ hq.2.1, hq.2.2⟩
  intro x hx
  have hne : p ≠ x := by
    rintro rfl
    exact hp hx
  simp [nextOf, deref_free_ne hne]

/-- Creating a request and pushing it on a well-formed queue appends the new
cell, whose address is the old heap length, and changes no string of any cell. -/
theorem enqueue_new {h : Heap} {q : Queue} {l : List Ptr} (m u b : Option CString)
    (hq : Holds h q l) :
    ∃ h1 q1, queue_push (h ++ [some ⟨m, u, b, none⟩]) q (some h.length) = .ok (h1, q1) ∧
      Holds h1 q1 (l ++ [h.length]) ∧ h1.length = h.length + 1 ∧
      (deref h1 h.length).map payload = some (m, u, b) ∧
      (∀ x, x < h.length → (deref h1 x).map payload = (deref h x).map payload) ∧
      (∀ x, x ∉ l → x < h.length → deref h1 x = deref h x) := by
  have hfresh : h.length ∉ l := fun hmem => Nat.lt_irrefl _ (holds_lt hq _ hmem)
  obtain ⟨h1, q1, hpush, hq1, hlen, hpay, hframe⟩ :=
    queue_push_holds (holds_append (some ⟨m, u, b, none⟩) hq) hfresh
      (deref_append_new h ⟨m, u, b, none⟩)
  refine ⟨h1, q1, hpush, hq1, by simpa using hlen, ?_, ?_, ?_⟩
  · rw [hpay, deref_append_new]
    rfl
  · intro x hx
    rw [hpay, deref_append_old _ hx]
  · intro x hxl hx
    rw [hframe x hxl (Nat.ne_of_lt hx), deref_append_old _ hx]

/-! ## Client operations that enqueue a request -/

theorem mq_publish_ok {BUFSIZ : Nat} {h : Heap} {mq : MessageQueue} {lo : List Ptr}
    (topic : CString) (body : Option CString) (hfit : topic.length + 8 ≤ BUFSIZ)
    (ho : Holds h mq.outgoing lo) :
    ∃ h1 q1, mq_publish BUFSIZ h mq topic body = .ok (h1, { mq with outgoing := q1 }) ∧
      Holds h1 q1 (lo ++ [h.length]) ∧ h1.length = h.length + 1 ∧
      (deref h1 h.length).map payload
        = some (some "PUT".toList, some ("/topic/".toList ++ topic), body) ∧
      (∀ x, x < h.length → (deref h1 x).map payload = (deref h x).map payload) ∧
      (∀ x, x ∉ lo → x < h.length → deref h1 x = deref h x) := by
  obtain ⟨h1, q1, hpush, hrest⟩ :=
    enqueue_new (some "PUT".toList) (some ("/topic/".toList ++ topic)) body ho
  refine ⟨h1, q1, ?_, hrest⟩
  have hlen : ("/topic/".toList ++ topic).length + 1 ≤ BUFSIZ := by
    simp only [List.length_append]
    have : "/topic/".toList.length = 7 := rfl
    omega
  simp only [mq_publish, sprintf, hlen, if_true, request_create_eq, hpush]

theorem mq_subscribe_ok {BUFSIZ : Nat} {h : Heap} {mq : MessageQueue} {lo : List Ptr}
    (topic : CString) (hfit : mq.name.length + topic.length + 16 ≤ BUFSIZ)
    (ho : Holds h mq.outgoing lo) :
    ∃ h1 q1, mq_subscribe BUFSIZ h mq topic = .ok (h1, { mq with outgoing := q1 }) ∧
      Holds h1 q1 (lo ++ [h.length]) ∧ h1.length = h.length + 1 ∧
      (deref h1 h.length).map payload
        = some (some "PUT".toList,
            some ("/subscription/".toList ++ mq.name ++ "/".toList ++ topic), none) ∧
      (∀ x, x < h.length → (deref h1 x).map payload = (deref h x).map payload) ∧
      (∀ x, x ∉ lo → x < h.length → deref h1 x = deref h x) := by
  obtain ⟨h1, q1, hpush, hrest⟩ :=
    enqueue_new (some "PUT".toList)
      (some ("/subscription/".toList ++ mq.name ++ "/".toList ++ topic)) none ho
  refine ⟨h1, q1, ?_, hrest⟩
  have hlen : ("/subscription/".toList ++ mq.name ++ "/".toList ++ topic).length + 1
      ≤ BUFSIZ := by
    simp only [List.length_append]
    have h14 : "/subscription/".toList.length = 14 := rfl
    have h1 : "/".toList.length = 1 := rfl
    omega
  simp only [mq_subscribe, sprintf, hlen, if_true, request_create_eq, hpush]

theorem mq_unsubscribe_ok {BUFSIZ : Nat} {h : Heap} {mq : MessageQueue} {lo : List Ptr}
    (topic : CString) (hfit : mq.name.length + topic.length + 16 ≤ BUFSIZ)
    (ho : Holds h mq.outgoing lo) :
    ∃ h1 q1, mq_unsubscribe BUFSIZ h mq topic = .ok (h1, { mq with outgoing := q1 }) ∧
      Holds h1 q1 (lo ++ [h.length]) ∧ h1.length = h.length + 1 ∧
      (deref h1 h.length).map payload
        = some (some "DELETE".toList,
            some ("/subscription/".toList ++ mq.name ++ "/".toList ++ topic), none) ∧
      (∀ x, x < h.length → (deref h1 x).map payload = (deref h x).map payload) ∧
      (∀ x, x ∉ lo → x < h.length → deref h1 x = deref h x) := by
  obtain ⟨h1, q1, hpush, hrest⟩ :=
    enqueue_new (some "DELETE".toList)
      (some ("/subscription/".toList ++ mq.name ++ "/".toList ++ topic)) none ho
  refine ⟨h1, q1, ?_, hrest⟩
  have hlen : ("/subscription/".toList ++ mq.name ++ "/".toList ++ topic).length + 1
      ≤ BUFSIZ := by
    simp only [List.length_append]
    have h14 : "/subscription/".toList.length = 14 := rfl
    have h1 : "/".toList.length = 1 := rfl
    omega
  simp only [mq_unsubscribe, sprintf, hlen, if_true, request_create_eq, hpush]

/-- What `request_write` emits for a live request with method and URI. -/
theorem request_write_eq {h : Heap} {p : Ptr} {m u : CString} {body : Option CString}
    (hp : (deref h p).map payload = some (some m, some u, body)) (out : List Char) :
    request_write h (some p) (some out) = .ok (some (out ++ wire m u body)) := by
  cases hd : deref h p with
  | none => simp [hd] at hp
  | some rq =>
    simp only [hd, Option.map_some', payload, Option.some.injEq, Prod.mk.injEq] at hp
    obtain ⟨hm, hu, hb⟩ := hp
    cases body <;> simp [request_write, hd, hm, hu, hb, wire]

theorem mq_publish_overrun (BUFSIZ : Nat) (h : Heap) (mq : MessageQueue) (topic : CString)
    (body : Option CString) (hbig : BUFSIZ < topic.length + 8) :
    mq_publish BUFSIZ h mq topic body = .error .fault := by
  have hlen : ¬ ("/topic/".toList ++ topic).length + 1 ≤ BUFSIZ := by
    simp only [List.length_append]
    have : "/topic/".toList.length = 7 := rfl
    omega
  simp only [mq_publish, sprintf, hlen, if_false]

/-! ## C2: publish -/

/-- C2 (as amended): for every topic that fits the `uri` buffer
(`topic.length + 8 ≤ BUFSIZ`) and every non-null body, `mq_publish` on a client
with a well-formed outgoing queue appends exactly one request at the tail of
`outgoing`, and `request_write` of that request emits exactly
`PUT /topic/<topic> HTTP/1.0\r\nContent-Length: <n>\r\n\r\n<body>` with `<n>` the
decimal length of the body. -/
theorem C2_publish_appends_and_serializes (BUFSIZ : Nat) (h : Heap) (mq : MessageQueue)
    (lo : List Ptr) (topic body : CString) (hfit : topic.length + 8 ≤ BUFSIZ)
    (ho : Holds h mq.outgoing lo) :
    ∃ h1 mq1 p, mq_publish BUFSIZ h mq topic (some body) = .ok (h1, mq1) ∧
      contents h1 mq1.outgoing = contents h mq.outgoing ++ [p] ∧
      Holds h1 mq1.outgoing (lo ++ [p]) ∧
      request_write h1 (some p) (some []) = .ok (some
        ("PUT /topic/".toList ++ topic ++ " HTTP/1.0\r\nContent-Length: ".toList
          ++ decimal body.length ++ "\r\n\r\n".toList ++ body)) := by
  obtain ⟨h1, q1, hpub, hq1, _, hpay, _, _⟩ := mq_publish_ok topic (some body) hfit ho
  refine ⟨h1, { mq with outgoing := q1 }, h.length, hpub, ?_, hq1, ?_⟩
  · rw [contents_of_holds hq1, contents_of_holds ho]
  · rw [request_write_eq hpay []]
    rfl

/-- Witness for C2: topic `x`, body `payload`, a fresh client, `BUFSIZ = 8192`. -/
theorem C2_publish_appends_and_serializes_witness :
    ∃ h1 mq1 p, mq_publish 8192 [] freshClient "x".toList (some "payload".toList) = .ok (h1, mq1) ∧
      contents h1 mq1.outgoing = contents [] freshClient.outgoing ++ [p] ∧
      Holds h1 mq1.outgoing ([] ++ [p]) ∧
      request_write h1 (some p) (some []) = .ok (some
        ("PUT /topic/".toList ++ "x".toList ++ " HTTP/1.0\r\nContent-Length: ".toList
          ++ decimal "payload".toList.length ++ "\r\n\r\n".toList ++ "payload".toList)) :=
  C2_publish_appends_and_serializes 8192 [] _ [] "x".toList "payload".toList (by decide)
    (holds_create [])

/-- The bytes of the example of C2: topic `x` and body `payload` on a fresh client. -/
theorem publish_x_payload_bytes :
    (match mq_publish 8192 [] freshClient "x".toList (some "payload".toList) with
      | .ok (h1, mq1) => request_write h1 mq1.outgoing.tail (some [])
      | .error e => .error e)
      = .ok (some "PUT /topic/x HTTP/1.0\r\nContent-Length: 7\r\n\r\npayload".toList) := by
  rfl

/-- Counterexample to C2 as stated: with `BUFSIZ = 8192`, a topic of 8185
characters overruns `char uri[BUFSIZ]` in `mq_publish`, so no request is appended. -/
theorem C2_counterexample_oversized_topic :
    ¬ ∃ r, mq_publish 8192 [] freshClient (List.replicate 8185 'a') (some "payload".toList) = .ok r := by
  rintro ⟨r, hr⟩
  rw [mq_publish_overrun 8192 _ _ _ _ (by rw [List.length_replicate]; omega)] at hr
  cases hr

theorem mq_subscribe_overrun (BUFSIZ : Nat) (h : Heap) (mq : MessageQueue) (topic : CString)
    (hbig : BUFSIZ < mq.name.length + topic.length + 16) :
    mq_subscribe BUFSIZ h mq topic = .error .fault := by
  have hlen : ¬ ("/subscription/".toList ++ mq.name ++ "/".toList ++ topic).length + 1
      ≤ BUFSIZ := by
    simp only [List.length_append]
    have h14 : "/subscription/".toList.length = 14 := rfl
    have h1 : "/".toList.length = 1 := rfl
    omega
  simp only [mq_subscribe, sprintf, hlen, if_false]

/-! ## C9: subscribe and unsubscribe -/

/-- C9 (as amended): for every client name `N` and topic `T` whose URI fits the
`uri` buffer (`N.length + T.length + 16 ≤ BUFSIZ`), on a client with a
well-formed outgoing queue, `mq_subscribe` appends at the tail of `outgoing`
exactly one body-less request with method `PUT` and URI `/subscription/N/T`,
`mq_unsubscribe` appends exactly one body-less request with method `DELETE` and
the same URI, and `request_write` of either emits exactly
`<METHOD> <URI> HTTP/1.0\r\n\r\n`, without a `Content-Length` line. -/
theorem C9_subscribe_unsubscribe (BUFSIZ : Nat) (h : Heap) (mq : MessageQueue)
    (lo : List Ptr) (topic : CString)
    (hfit : mq.name.length + topic.length + 16 ≤ BUFSIZ) (ho : Holds h mq.outgoing lo) :
    (∃ h1 mq1 p, mq_subscribe BUFSIZ h mq topic = .ok (h1, mq1) ∧
      contents h1 mq1.outgoing = contents h mq.outgoing ++ [p] ∧
      (deref h1 p).map payload = some (some "PUT".toList,
        some ("/subscription/".toList ++ mq.name ++ "/".toList ++ topic), none) ∧
      request_write h1 (some p) (some []) = .ok (some
        ("PUT /subscription/".toList ++ mq.name ++ "/".toList ++ topic
          ++ " HTTP/1.0\r\n\r\n".toList))) ∧
    (∃ h1 mq1 p, mq_unsubscribe BUFSIZ h mq topic = .ok (h1, mq1) ∧
      contents h1 mq1.outgoing = contents h mq.outgoing ++ [p] ∧
      (deref h1 p).map payload = some (some "DELETE".toList,
        some ("/subscription/".toList ++ mq.name ++ "/".toList ++ topic), none) ∧
      request_write h1 (some p) (some []) = .ok (some
        ("DELETE /subscription/".toList ++ mq.name ++ "/".toList ++ topic
          ++ " HTTP/1.0\r\n\r\n".toList))) := by
  constructor
  · obtain ⟨h1, q1, hsub, hq1, _, hpay, _, _⟩ := mq_subscribe_ok topic hfit ho
    refine ⟨h1, { mq with outgoing := q1 }, h.length, hsub, ?_, hpay, ?_⟩
    · rw [contents_of_holds hq1, contents_of_holds ho]
    · rw [request_write_eq hpay []]
      simp [wire]
  · obtain ⟨h1, q1, hsub, hq1, _, hpay, _, _⟩ := mq_unsubscribe_ok topic hfit ho
    refine ⟨h1, { mq with outgoing := q1 }, h.length, hsub, ?_, hpay, ?_⟩
    · rw [contents_of_holds hq1, contents_of_holds ho]
    · rw [request_write_eq hpay []]
      simp [wire]

/-- Witness for C9: client `alice`, topic `news`, `BUFSIZ = 8192`. -/
theorem C9_subscribe_unsubscribe_witness :
    (∃ h1 mq1 p, mq_subscribe 8192 [] freshClient "news".toList = .ok (h1, mq1) ∧
      contents h1 mq1.outgoing = contents [] freshClient.outgoing ++ [p] ∧
      (deref h1 p).map payload = some (some "PUT".toList,
        some ("/subscription/".toList ++ freshClient.name ++ "/".toList ++ "news".toList), none) ∧
      request_write h1 (some p) (some []) = .ok (some
        ("PUT /subscription/".toList ++ freshClient.name ++ "/".toList ++ "news".toList
          ++ " HTTP/1.0\r\n\r\n".toList))) ∧
    (∃ h1 mq1 p, mq_unsubscribe 8192 [] freshClient "news".toList = .ok (h1, mq1) ∧
      contents h1 mq1.outgoing = contents [] freshClient.outgoing ++ [p] ∧
      (deref h1 p).map payload = some (some "DELETE".toList,
        some ("/subscription/".toList ++ freshClient.name ++ "/".toList ++ "news".toList), none) ∧
      request_write h1 (some p) (some []) = .ok (some
        ("DELETE /subscription/".toList ++ freshClient.name ++ "/".toList ++ "news".toList
          ++ " HTTP/1.0\r\n\r\n".toList))) :=
  C9_subscribe_unsubscribe 8192 [] _ [] "news".toList (by decide) (holds_create [])

/-- Counterexample to C9 as stated: with `BUFSIZ = 8192` and client name `alice`,
a topic of 8192 characters overruns `char uri[BUFSIZ]` in `mq_subscribe`, so no
request is appended. -/
theorem C9_counterexample_oversized_topic :
    ¬ ∃ r, mq_subscribe 8192 [] freshClient (List.replicate 8192 'a') = .ok r := by
  rintro ⟨r, hr⟩
  rw [mq_subscribe_overrun 8192 _ _ _ (by rw [List.length_replicate]; omega)] at hr
  cases hr

/-! ## C6: the state change of `mq_stop` -/

/-- C6: on a client whose two queues are well formed and share no request, with
a `uri` buffer that holds `/topic/SHUTDOWN` (`16 ≤ BUFSIZ`), `mq_stop` before its
joins sets `shutdown` to true and appends exactly one request at the tail of
`outgoing`, with method `PUT`, URI `/topic/SHUTDOWN` and body `SHUTDOWN`; the
requests already in `outgoing` keep their order and their strings, and
`incoming` (record and contents), `name`, `host` and `port` are unchanged. -/
theorem C6_stop_sets_flag_and_queues_sentinel (BUFSIZ : Nat) (h : Heap)
    (mq : MessageQueue) (lo li : List Ptr) (hbuf : 16 ≤ BUFSIZ)
    (ho : Holds h mq.outgoing lo) (hi : Holds h mq.incoming li)
    (hdisj : ∀ p ∈ lo, p ∉ li) :
    ∃ h1 mq1 p, mq_stop BUFSIZ h mq = .ok (h1, mq1) ∧
      mq1.shutdown = true ∧
      contents h1 mq1.outgoing = contents h mq.outgoing ++ [p] ∧
      p ∉ contents h mq.outgoing ∧
      (deref h1 p).map payload = some (some "PUT".toList, some "/topic/SHUTDOWN".toList,
        some "SHUTDOWN".toList) ∧
      (∀ x ∈ contents h mq.outgoing, (deref h1 x).map payload = (deref h x).map payload) ∧
      mq1.incoming = mq.incoming ∧
      contents h1 mq1.incoming = contents h mq.incoming ∧
      (∀ x ∈ contents h mq.incoming, deref h1 x = deref h x) ∧
      mq1.name = mq.name ∧ mq1.host = mq.host ∧ mq1.port = mq.port := by
  have hfit : SENTINEL.length + 8 ≤ BUFSIZ := by
    have : SENTINEL.length = 8 := rfl
    omega
  have ho1 : Holds h ({ mq with shutdown := true } : MessageQueue).outgoing lo := ho
  obtain ⟨h1, q1, hpub, hq1, _, hpay, hold, hframe⟩ :=
    mq_publish_ok SENTINEL (some SENTINEL) hfit ho1
  have hli : ∀ x ∈ li, deref h1 x = deref h x := by
    intro x hx
    exact hframe x (fun hxo => hdisj x hxo hx) (holds_lt hi x hx)
  have hi1 : Holds h1 mq.incoming li := by
    refine ⟨hi.1, linked_congr ?_ hi.2.1, hi.2.2⟩
    intro x hx
    simp [nextOf, hli x hx]
  refine ⟨h1, _, h.length, hpub, rfl, ?_, ?_, hpay, ?_, rfl, ?_, ?_, rfl, rfl, rfl⟩
  · rw [contents_of_holds hq1, contents_of_holds ho]
  · rw [contents_of_holds ho]
    exact fun hmem => Nat.lt_irrefl _ (holds_lt ho _ hmem)
  · rw [contents_of_holds ho]
    exact fun x hx => hold x (holds_lt ho x hx)
  · rw [contents_of_holds hi1, contents_of_holds hi]
  · rw [contents_of_holds hi]
    exact hli

/-- Witness for C6: a client holding one queued publish request and one
delivered message, `BUFSIZ = 8192`. -/
theorem C6_stop_sets_flag_and_queues_sentinel_witness :
    ∃ h1 mq1 p, mq_stop 8192 demoHeap demoClient = .ok (h1, mq1) ∧
      mq1.shutdown = true ∧
      contents h1 mq1.outgoing = contents demoHeap demoClient.outgoing ++ [p] ∧
      p ∉ contents demoHeap demoClient.outgoing ∧
      (deref h1 p).map payload = some (some "PUT".toList, some "/topic/SHUTDOWN".toList,
        some "SHUTDOWN".toList) ∧
      (∀ x ∈ contents demoHeap demoClient.outgoing,
        (deref h1 x).map payload = (deref demoHeap x).map payload) ∧
      mq1.incoming = demoClient.incoming ∧
      contents h1 mq1.incoming = contents demoHeap demoClient.incoming ∧
      (∀ x ∈ contents demoHeap demoClient.incoming, deref h1 x = deref demoHeap x) ∧
      mq1.name = demoClient.name ∧ mq1.host = demoClient.host ∧
      mq1.port = demoClient.port :=
  C6_stop_sets_flag_and_queues_sentinel 8192 demoHeap demoClient [0] [1] (by decide)
    (by decide) (by decide) (by decide)

/-! ## C3: retrieve -/

/-- C3: when `incoming` is well formed and non-empty and its head request `p`
has the non-null body `b`, `mq_retrieve` returns, removes exactly `p` from
`incoming` (the other requests keep their order), and its result is NULL if and
only if `b` is `SHUTDOWN`; otherwise the result is a string equal to `b`. -/
theorem C3_retrieve_head_or_end_of_stream (h : Heap) (mq : MessageQueue) (p : Ptr)
    (l : List Ptr) (rq : Request) (b : CString) (hi : Holds h mq.incoming (p :: l))
    (hd : deref h p = some rq) (hb : rq.body = some b) :
    ∃ h1 mq1 res, mq_retrieve h mq = .ok (h1, mq1, res) ∧
      contents h mq.incoming = p :: contents h1 mq1.incoming ∧
      Holds h1 mq1.incoming l ∧
      (res = none ↔ b = "SHUTDOWN".toList) ∧
      (b ≠ "SHUTDOWN".toList → res = some b) ∧
      mq1.outgoing = mq.outgoing := by
  obtain ⟨q1, hpop, hq1⟩ := queue_pop_holds hi
  have hpl : p ∉ l := (List.nodup_cons.1 hi.1).1
  have hq2 : Holds (free h p) q1 l := holds_free hpl hq1
  have hc : contents h mq.incoming = p :: contents (free h p) q1 := by
    rw [contents_of_holds hi, contents_of_holds hq2]
  by_cases hs : b = SENTINEL
  · refine ⟨free h p, { mq with incoming := q1 }, none, ?_, hc, hq2, ?_, ?_, rfl⟩
    · simp [mq_retrieve, hpop, hd, hb, hs, request_delete]
    · exact ⟨fun _ => hs, fun _ => rfl⟩
    · intro hne
      exact absurd hs hne
  · refine ⟨free h p, { mq with incoming := q1 }, some b, ?_, hc, hq2, ?_, ?_, rfl⟩
    · simp [mq_retrieve, hpop, hd, hb, hs, request_delete]
    · constructor
      · intro hn
        cases hn
      · intro hn
        exact absurd hn hs
    · intro _
      rfl

/-- Witness for C3: the client of `demoClient`, whose `incoming` holds `hello`. -/
theorem C3_retrieve_head_or_end_of_stream_witness :
    ∃ h1 mq1 res, mq_retrieve demoHeap demoClient = .ok (h1, mq1, res) ∧
      contents demoHeap demoClient.incoming = 1 :: contents h1 mq1.incoming ∧
      Holds h1 mq1.incoming [] ∧
      (res = none ↔ "hello".toList = "SHUTDOWN".toList) ∧
      ("hello".toList ≠ "SHUTDOWN".toList → res = some "hello".toList) ∧
      mq1.outgoing = demoClient.outgoing :=
  C3_retrieve_head_or_end_of_stream demoHeap demoClient 1 []
    ⟨some "GET".toList, some "/queue/alice".toList, some "hello".toList, none⟩
    "hello".toList (by decide) rfl rfl

/-! ## C8: one iteration of the pusher -/

/-- C8: one iteration of the `mq_pusher` loop on a client with a well-formed
outgoing queue `lo` never adds a request to `outgoing`. If the connection fails
nothing changes. If it succeeds and `lo` is empty the iteration waits in
`queue_pop`. If it succeeds and `lo = p :: rest`, with `p` carrying a method and
a URI, the iteration returns with `outgoing` holding exactly `rest`, whatever
bytes `resp` the peer answers (a status line without `200 OK`, or none at all,
included), the strings of `rest` unchanged and the request written once. -/
theorem C8_pusher_iteration_never_requeues (BUFSIZ : Nat) (h : Heap) (mq : MessageQueue)
    (lo : List Ptr) (ho : Holds h mq.outgoing lo) :
    mq_pusher_body BUFSIZ h mq none = .ok (h, mq, none) ∧
    (∀ resp, lo = [] → mq_pusher_body BUFSIZ h mq (some resp) = .error .blocked) ∧
    (∀ resp p rest m u b, lo = p :: rest →
      (deref h p).map payload = some (some m, some u, b) →
      ∃ h1 mq1, mq_pusher_body BUFSIZ h mq (some resp) = .ok (h1, mq1, some (wire m u b)) ∧
        contents h mq.outgoing = p :: contents h1 mq1.outgoing ∧
        Holds h1 mq1.outgoing rest ∧
        (∀ x ∈ rest, deref h1 x = deref h x) ∧
        mq1.incoming = mq.incoming ∧ mq1.shutdown = mq.shutdown) := by
  refine ⟨rfl, ?_, ?_⟩
  · intro resp hnil
    subst hnil
    have hs : mq.outgoing.size = 0 := ho.2.2.1
    simp [mq_pusher_body, queue_pop, hs]
  · intro resp p rest m u b hcons hpay
    subst hcons
    obtain ⟨q1, hpop, hq1⟩ := queue_pop_holds ho
    have hpl : p ∉ rest := (List.nodup_cons.1 ho.1).1
    have hq2 : Holds (free h p) q1 rest := holds_free hpl hq1
    have hw := request_write_eq hpay []
    simp only [List.nil_append] at hw
    refine ⟨free h p, { mq with outgoing := q1 }, ?_, ?_, hq2, ?_, rfl, rfl⟩
    · simp only [mq_pusher_body, hpop, hw, request_delete]
      split
      · rfl
      · split <;> rfl
    · rw [contents_of_holds ho, contents_of_holds hq2]
    · intro x hx
      have hne : p ≠ x := by
        rintro rfl
        exact hpl hx
      exact deref_free_ne hne

/-- Witness for C8: the client of `demoClient`, whose `outgoing` holds one request. -/
theorem C8_pusher_iteration_never_requeues_witness :
    mq_pusher_body 8192 demoHeap demoClient none = .ok (demoHeap, demoClient, none) ∧
    (∀ resp, [0] = [] → mq_pusher_body 8192 demoHeap demoClient (some resp)
      = .error .blocked) ∧
    (∀ resp p rest m u b, [0] = p :: rest →
      (deref demoHeap p).map payload = some (some m, some u, b) →
      ∃ h1 mq1, mq_pusher_body 8192 demoHeap demoClient (some resp)
          = .ok (h1, mq1, some (wire m u b)) ∧
        contents demoHeap demoClient.outgoing = p :: contents h1 mq1.outgoing ∧
        Holds h1 mq1.outgoing rest ∧
        (∀ x ∈ rest, deref h1 x = deref demoHeap x) ∧
        mq1.incoming = demoClient.incoming ∧ mq1.shutdown = demoClient.shutdown) :=
  C8_pusher_iteration_never_requeues 8192 demoHeap demoClient [0] (by decide)

/-- A `404` answer to the pusher on `demoClient`: the request is written once and
`outgoing` is left empty. -/
theorem pusher_on_404 :
    mq_pusher_body 8192 demoHeap demoClient (some "HTTP/1.0 404 Not Found\r\n\r\n".toList)
      = .ok ([none, demoHeap.get ⟨1, by decide⟩],
          { demoClient with outgoing := ⟨none, none, 0⟩ },
          some "PUT /topic/x HTTP/1.0\r\nContent-Length: 2\r\n\r\nhi".toList) := by
  rfl

/-! ## Lemmas on the library calls of the puller -/

theorem readLine_line (content rest : List Char) (hnl : '\n' ∉ content) :
    ∀ k, content.length + 1 ≤ k →
      readLine k (content ++ '\n' :: rest) = (content ++ ['\n'], rest) := by
  induction content with
  | nil =>
    intro k hk
    obtain ⟨k1, rfl⟩ : ∃ k1, k = k1 + 1 := ⟨k - 1, by simp at hk; omega⟩
    simp [readLine]
  | cons c cs ih =>
    intro k hk
    obtain ⟨k1, rfl⟩ : ∃ k1, k = k1 + 1 := ⟨k - 1, by simp at hk; omega⟩
    have hc : c ≠ '\n' := fun hEq => hnl (by simp [hEq])
    have hcs : '\n' ∉ cs := fun hmem => hnl (List.mem_cons_of_mem _ hmem)
    have hk1 : cs.length + 1 ≤ k1 := by
      simp only [List.length_cons] at hk
      omega
    simp [readLine, hc, ih hcs k1 hk1]

theorem fgets_line (BUFSIZ : Nat) (content rest : List Char) (hnl : '\n' ∉ content)
    (hlen : content.length + 2 ≤ BUFSIZ) :
    fgets BUFSIZ (content ++ '\n' :: rest) = some (content ++ ['\n'], rest) := by
  have hr := readLine_line content rest hnl (BUFSIZ - 1) (by omega)
  cases content with
  | nil => simpa [fgets] using hr
  | cons c cs => simpa [fgets] using hr

theorem cstr_eq_self {l : List Char} (h0 : '\x00' ∉ l) : cstr l = l := by
  unfold cstr
  rw [List.takeWhile_eq_self_iff]
  intro c hc
  have : c ≠ '\x00' := fun hEq => h0 (hEq ▸ hc)
  simpa using this

theorem strstr_found {needle : CString} :
    ∀ {hay : CString}, needle <:+: hay → (strstr hay needle).isSome := by
  intro hay
  induction hay with
  | nil =>
    intro hin
    have : needle = [] := List.eq_nil_of_infix_nil hin
    simp [strstr, this]
  | cons c cs ih =>
    intro hin
    unfold strstr
    by_cases hp : needle.isPrefixOf (c :: cs) = true
    · simp [hp]
    · simp only [hp]
      have hnp : ¬ needle <+: c :: cs := fun hpre => hp (List.isPrefixOf_iff_prefix.2 hpre)
      rcases List.infix_cons_iff.1 hin with hpre | hin1
      · exact absurd hpre hnp
      · simpa using ih hin1

theorem matchLiteral_append (lit rest : CString) :
    matchLiteral lit (lit ++ rest) = some rest := by
  induction lit with
  | nil => rfl
  | cons c cs ih => simp [matchLiteral, ih]

theorem matchLiteral_none {lit : CString} :
    ∀ {s : CString}, ¬ lit <+: s → matchLiteral lit s = none := by
  induction lit with
  | nil =>
    intro s hs
    exact absurd (List.nil_prefix) hs
  | cons c cs ih =>
    intro s hs
    cases s with
    | nil => rfl
    | cons d ds =>
      by_cases hcd : c = d
      · subst hcd
        have : ¬ cs <+: ds := fun hpre => hs ((List.prefix_cons_inj c).2 hpre)
        simp [matchLiteral, ih this]
      · simp [matchLiteral, hcd]

theorem sscanf_no_match {buffer : CString} (length : Nat)
    (hno : ¬ "Content-Length:".toList <+: buffer) :
    sscanf_content_length buffer length = .ok length := by
  unfold sscanf_content_length
  rw [matchLiteral_none hno]

theorem isspace_of_isDigit {c : Char} (hd : c.isDigit = true) : isspace c = false := by
  have h1 : 48 ≤ c.val.toNat ∧ c.val.toNat ≤ 57 := by
    simp only [Char.isDigit, Bool.and_eq_true, decide_eq_true_eq] at hd
    exact ⟨hd.1, hd.2⟩
  have hne : ∀ d : Char, d.val.toNat < 48 → c ≠ d := by
    rintro d hd1 rfl
    omega
  simp [isspace, hne ' ' (by decide), hne '\t' (by decide), hne '\n' (by decide),
    hne '\x0b' (by decide), hne '\x0c' (by decide), hne '\r' (by decide)]

theorem not_sign_of_isDigit {c : Char} (hd : c.isDigit = true) : c ≠ '-' ∧ c ≠ '+' := by
  have h1 : 48 ≤ c.val.toNat := by
    simp only [Char.isDigit, Bool.and_eq_true, decide_eq_true_eq] at hd
    exact hd.1
  constructor
  · rintro rfl
    exact absurd h1 (by decide)
  · rintro rfl
    exact absurd h1 (by decide)

theorem dropWhile_append_all {p : Char → Bool} {ws : List Char} (r : List Char)
    (hws : ∀ c ∈ ws, p c = true) : (ws ++ r).dropWhile p = r.dropWhile p := by
  induction ws with
  | nil => rfl
  | cons c cs ih =>
    have hc := hws c (List.mem_cons_self _ _)
    simp only [List.cons_append, List.dropWhile_cons, hc, if_true]
    exact ih (fun x hx => hws x (List.mem_cons_of_mem _ hx))

theorem takeWhile_append_stop {p : Char → Bool} {ds : List Char} (c : Char) (r : List Char)
    (hds : ∀ x ∈ ds, p x = true) (hc : p c = false) :
    (ds ++ c :: r).takeWhile p = ds := by
  induction ds with
  | nil => simp [List.takeWhile_cons, hc]
  | cons d ds1 ih =>
    have hd := hds d (List.mem_cons_self _ _)
    simp only [List.cons_append, List.takeWhile_cons, hd, if_true]
    rw [ih (fun x hx => hds x (List.mem_cons_of_mem _ hx))]

/-- The header line `Content-Length:`, white space, a decimal numeral and
`\r\n` sets `length` to the value of the numeral. -/
theorem sscanf_content_length_line (ws ds : List Char) (length : Nat)
    (hws : ∀ c ∈ ws, isspace c = true) (hne : ds ≠ [])
    (hds : ∀ c ∈ ds, c.isDigit = true) (hfit : digitsValue ds < 2 ^ 64) :
    sscanf_content_length ("Content-Length:".toList ++ ws ++ ds ++ "\r\n".toList) length
      = .ok (digitsValue ds) := by
  obtain ⟨d, ds1, rfl⟩ := List.exists_cons_of_ne_nil hne
  have hd := hds d (List.mem_cons_self _ _)
  have hdrop : (ws ++ (d :: ds1 ++ "\r\n".toList)).dropWhile isspace
      = d :: ds1 ++ "\r\n".toList := by
    rw [dropWhile_append_all _ hws]
    simp [List.dropWhile_cons, isspace_of_isDigit hd]
  have htake : (d :: ds1 ++ "\r\n".toList).takeWhile Char.isDigit = d :: ds1 :=
    takeWhile_append_stop '\r' ['\n'] hds (by decide)
  have hm : matchLiteral "Content-Length:".toList
      ("Content-Length:".toList ++ ws ++ (d :: ds1) ++ "\r\n".toList)
      = some (ws ++ (d :: ds1 ++ "\r\n".toList)) := by
    rw [List.append_assoc, List.append_assoc]
    exact matchLiteral_append _ _
  obtain ⟨hminus, hplus⟩ := not_sign_of_isDigit hd
  have hsign : ¬ ((d :: ds1 ++ "\r\n".toList).head? = some '-'
      ∨ (d :: ds1 ++ "\r\n".toList).head? = some '+') := by
    simp [hminus, hplus]
  have hneg : ¬ ((d :: ds1 ++ "\r\n".toList).head? = some '-') := fun hh => hsign (Or.inl hh)
  simp only [sscanf_content_length, hm, hdrop, if_neg hsign, htake, hfit, if_true]
  simp [hminus]

/-! ## Decimal numerals -/

theorem digitsValue_foldl (ds : List Char) : ∀ a : Nat,
    ds.foldl (fun a c => 10 * a + (c.toNat - '0'.toNat)) a
      = a * 10 ^ ds.length + digitsValue ds := by
  induction ds with
  | nil =>
    intro a
    simp [digitsValue]
  | cons c cs ih =>
    intro a
    simp only [List.foldl_cons, List.length_cons, digitsValue]
    rw [ih, ih (10 * 0 + (c.toNat - '0'.toNat))]
    ring

theorem digitsValue_cons (c : Char) (ds : List Char) :
    digitsValue (c :: ds) = (c.toNat - '0'.toNat) * 10 ^ ds.length + digitsValue ds := by
  have hfold := digitsValue_foldl ds (10 * 0 + (c.toNat - '0'.toNat))
  simp only [digitsValue, List.foldl_cons]
  rw [hfold]
  simp [digitsValue]

theorem digitChar_spec (d : Nat) (hd : d < 10) :
    (Nat.digitChar d).isDigit = true ∧ (Nat.digitChar d).toNat - '0'.toNat = d := by
  interval_cases d <;> decide

theorem toDigitsCore_spec : ∀ (fuel n : Nat) (ds : List Char), n < fuel →
    digitsValue (Nat.toDigitsCore 10 fuel n ds) = n * 10 ^ ds.length + digitsValue ds ∧
    (∀ c ∈ Nat.toDigitsCore 10 fuel n ds, c.isDigit = true ∨ c ∈ ds) ∧
    Nat.toDigitsCore 10 fuel n ds ≠ [] := by
  intro fuel
  induction fuel with
  | zero =>
    intro n ds hn
    omega
  | succ f ih =>
    intro n ds hn
    obtain ⟨hdig, hval⟩ := digitChar_spec (n % 10) (Nat.mod_lt _ (by decide))
    unfold Nat.toDigitsCore
    by_cases h0 : n / 10 = 0
    · simp only [h0, if_true]
      have hlt : n < 10 := by omega
      refine ⟨?_, ?_, by simp⟩
      · rw [digitsValue_cons, hval, Nat.mod_eq_of_lt hlt]
      · intro c hc
        rcases List.mem_cons.1 hc with rfl | hmem
        · exact Or.inl hdig
        · exact Or.inr hmem
    · simp only [h0, if_false]
      have hlt : n / 10 < f := by omega
      obtain ⟨hv, hall, hne⟩ := ih (n / 10) (Nat.digitChar (n % 10) :: ds) hlt
      refine ⟨?_, ?_, hne⟩
      · rw [hv, digitsValue_cons, hval, List.length_cons, pow_succ]
        have hdm := Nat.div_add_mod n 10
        generalize n / 10 = q at hdm
        generalize n % 10 = r at hdm
        subst hdm
        ring
      · intro c hc
        rcases hall c hc with hd | hmem
        · exact Or.inl hd
        · rcases List.mem_cons.1 hmem with rfl | hmem1
          · exact Or.inl hdig
          · exact Or.inr hmem1

/-- The numeral printed by `%zu` is a non-empty string of decimal digits whose
value is the number printed. -/
theorem decimal_spec (n : Nat) :
    digitsValue (decimal n) = n ∧ (∀ c ∈ decimal n, c.isDigit = true) ∧ decimal n ≠ [] := by
  obtain ⟨hv, hall, hne⟩ := toDigitsCore_spec (n + 1) n [] (Nat.lt_succ_self n)
  refine ⟨by simpa [digitsValue] using hv, ?_, hne⟩
  intro c hc
  rcases hall c hc with hd | hmem
  · exact hd
  · cases hmem

/-! ## The header loop -/

theorem prefix_of_prefix_concat {lit l : List Char} {c : Char} (hc : c ∉ lit)
    (hp : lit <+: l ++ [c]) : lit <+: l := by
  obtain ⟨t, ht⟩ := hp
  rcases List.eq_nil_or_concat t with hnil | ⟨t1, c1, hcons⟩
  · subst hnil
    rw [List.append_nil] at ht
    exact absurd (ht ▸ (by simp : c ∈ l ++ [c])) hc
  · subst hcons
    rw [List.concat_eq_append, ← List.append_assoc] at ht
    exact ⟨t1, (List.append_inj' ht rfl).1⟩

theorem read_headers_other (BUFSIZ fuel : Nat) (l rest : List Char) (length : Nat)
    (hl : OtherHeader BUFSIZ l) :
    read_headers BUFSIZ (fuel + 1) (l ++ '\n' :: rest) length
      = read_headers BUFSIZ fuel rest length := by
  obtain ⟨⟨hnl, h0, hlen⟩, hblank, hno⟩ := hl
  have h0l : '\x00' ∉ l ++ ['\n'] := by
    simp only [List.mem_append, List.mem_singleton, not_or]
    exact ⟨h0, by decide⟩
  have hnb : ¬ l ++ ['\n'] = "\r\n".toList := by
    intro hEq
    have h2 : l ++ ['\n'] = ['\r'] ++ ['\n'] := hEq
    exact hblank (List.append_inj' h2 rfl).1
  have hno1 : ¬ "Content-Length:".toList <+: l ++ ['\n'] :=
    fun hp => hno (prefix_of_prefix_concat (by decide) hp)
  rw [read_headers, fgets_line BUFSIZ l rest hnl hlen]
  simp only [cstr_eq_self h0l, hnb, if_false, sscanf_no_match length hno1]

theorem read_headers_skip (BUFSIZ : Nat) (ls : List (List Char)) (rest : List Char)
    (hls : ∀ l ∈ ls, OtherHeader BUFSIZ l) : ∀ (fuel length : Nat),
    read_headers BUFSIZ (fuel + ls.length) (unlines ls ++ rest) length
      = read_headers BUFSIZ fuel rest length := by
  induction ls with
  | nil =>
    intro fuel length
    rfl
  | cons l ls1 ih =>
    intro fuel length
    have hstep := read_headers_other BUFSIZ (fuel + ls1.length) l (unlines ls1 ++ rest) length
      (hls l (List.mem_cons_self _ _))
    have hsh : unlines (l :: ls1) ++ rest = l ++ '\n' :: (unlines ls1 ++ rest) := by
      simp [unlines]
    rw [hsh, List.length_cons, ← Nat.add_assoc, hstep]
    exact ih (fun x hx => hls x (List.mem_cons_of_mem _ hx)) fuel length

theorem read_headers_blank (BUFSIZ fuel : Nat) (rest : List Char) (length : Nat)
    (hbuf : 3 ≤ BUFSIZ) :
    read_headers BUFSIZ (fuel + 1) ('\r' :: '\n' :: rest) length = .ok (length, rest) := by
  have hf := fgets_line BUFSIZ ['\r'] rest (by decide) (by simpa using hbuf)
  have hc : cstr (['\r'] ++ ['\n']) = "\r\n".toList := cstr_eq_self (by decide)
  rw [read_headers]
  simp only [List.singleton_append] at hf hc
  simp only [hf, hc, if_true]

theorem read_headers_content_length (BUFSIZ fuel : Nat) (ws ds rest : List Char)
    (length : Nat) (hws : ∀ c ∈ ws, isspace c = true ∧ c ≠ '\n') (hne : ds ≠ [])
    (hds : ∀ c ∈ ds, c.isDigit = true) (hfit : digitsValue ds < 2 ^ 64)
    (hlen : ("Content-Length:".toList ++ ws ++ ds ++ ['\r']).length + 2 ≤ BUFSIZ) :
    read_headers BUFSIZ (fuel + 1)
      ("Content-Length:".toList ++ ws ++ ds ++ "\r\n".toList ++ rest) length
      = read_headers BUFSIZ fuel rest (digitsValue ds) := by
  have hdnl : ∀ c ∈ ds, c ≠ '\n' ∧ c ≠ '\x00' := by
    intro c hc
    have hd := hds c hc
    constructor <;> rintro rfl <;> exact absurd hd (by decide)
  have hwnul : ∀ c ∈ ws, c ≠ '\x00' := by
    intro c hc
    have hsp := (hws c hc).1
    rintro rfl
    exact absurd hsp (by decide)
  have hnl : '\n' ∉ "Content-Length:".toList ++ ws ++ ds ++ ['\r'] := by
    simp only [List.mem_append, List.mem_singleton, not_or]
    exact ⟨⟨⟨by decide, fun hm => (hws _ hm).2 rfl⟩, fun hm => (hdnl _ hm).1 rfl⟩, by decide⟩
  have h0 : '\x00' ∉ ("Content-Length:".toList ++ ws ++ ds ++ ['\r']) ++ ['\n'] := by
    simp only [List.mem_append, List.mem_singleton, not_or]
    exact ⟨⟨⟨⟨by decide, fun hm => hwnul _ hm rfl⟩, fun hm => (hdnl _ hm).2 rfl⟩, by decide⟩,
      by decide⟩
  have hshape : "Content-Length:".toList ++ ws ++ ds ++ "\r\n".toList ++ rest
      = ("Content-Length:".toList ++ ws ++ ds ++ ['\r']) ++ '\n' :: rest := by
    have : "\r\n".toList = ['\r'] ++ ['\n'] := rfl
    rw [this]
    simp only [List.append_assoc, List.singleton_append, List.cons_append, List.nil_append]
  have hline : ("Content-Length:".toList ++ ws ++ ds ++ ['\r']) ++ ['\n']
      = "Content-Length:".toList ++ ws ++ ds ++ "\r\n".toList := by
    have : "\r\n".toList = ['\r'] ++ ['\n'] := rfl
    rw [this]
    simp only [List.append_assoc]
  have hnb : ¬ ("Content-Length:".toList ++ ws ++ ds ++ ['\r']) ++ ['\n'] = "\r\n".toList := by
    intro hEq
    have hl := congrArg List.length hEq
    simp only [List.length_append, List.length_singleton] at hl
    have h15 : "Content-Length:".toList.length = 15 := rfl
    have h2 : "\r\n".toList.length = 2 := rfl
    omega
  have hscan := sscanf_content_length_line ws ds length (fun c hc => (hws c hc).1) hne hds hfit
  rw [hshape, read_headers, fgets_line BUFSIZ _ rest hnl hlen]
  simp only [cstr_eq_self h0, hnb, if_false]
  rw [hline, hscan]

theorem read_headers_mono (BUFSIZ : Nat) : ∀ (fuel : Nat) (inp : List Char) (length : Nat)
    (r : Nat × List Char), read_headers BUFSIZ fuel inp length = .ok r →
    ∀ k, read_headers BUFSIZ (fuel + k) inp length = .ok r := by
  intro fuel
  induction fuel with
  | zero =>
    intro inp length r hr
    simp [read_headers] at hr
  | succ f ih =>
    intro inp length r hr k
    have hk : f + 1 + k = (f + k) + 1 := by omega
    rw [hk, read_headers]
    rw [read_headers] at hr
    cases hf : fgets BUFSIZ inp with
    | none =>
      simp only [hf] at hr ⊢
      exact hr
    | some br =>
      obtain ⟨buffer, rest⟩ := br
      simp only [hf] at hr ⊢
      by_cases hb : cstr buffer = "\r\n".toList
      · simp only [hb, if_true] at hr ⊢
        exact hr
      · simp only [hb, if_false] at hr ⊢
        cases hs : sscanf_content_length (cstr buffer) length with
        | error e => simp [hs] at hr
        | ok length1 =>
          simp only [hs] at hr ⊢
          exact ih rest length1 r hr k

theorem length_le_unlines (ls : List (List Char)) : ls.length ≤ (unlines ls).length := by
  induction ls with
  | nil => simp [unlines]
  | cons l ls1 ih =>
    simp only [unlines, List.length_cons, List.length_append]
    omega

/-- The header loop on well-formed headers with one `Content-Length` line. -/
theorem read_headers_response (BUFSIZ : Nat) (pre post : List (List Char))
    (ws ds body : List Char)
    (hpre : ∀ l ∈ pre, OtherHeader BUFSIZ l) (hpost : ∀ l ∈ post, OtherHeader BUFSIZ l)
    (hws : ∀ c ∈ ws, isspace c = true ∧ c ≠ '\n') (hne : ds ≠ [])
    (hds : ∀ c ∈ ds, c.isDigit = true) (hfit : digitsValue ds < 2 ^ 64)
    (hlen : ("Content-Length:".toList ++ ws ++ ds ++ ['\r']).length + 2 ≤ BUFSIZ) :
    read_headers BUFSIZ
      ((unlines pre ++ ("Content-Length:".toList ++ ws ++ ds ++ "\r\n".toList
        ++ (unlines post ++ '\r' :: '\n' :: body))).length + 1)
      (unlines pre ++ ("Content-Length:".toList ++ ws ++ ds ++ "\r\n".toList
        ++ (unlines post ++ '\r' :: '\n' :: body))) 0
      = .ok (digitsValue ds, body) := by
  have hbuf : 3 ≤ BUFSIZ := by
    simp only [List.length_append, List.length_singleton] at hlen
    omega
  have hmin : read_headers BUFSIZ (((0 + 1) + post.length + 1) + pre.length)
      (unlines pre ++ ("Content-Length:".toList ++ ws ++ ds ++ "\r\n".toList
        ++ (unlines post ++ '\r' :: '\n' :: body))) 0 = .ok (digitsValue ds, body) := by
    rw [read_headers_skip BUFSIZ pre _ hpre,
      read_headers_content_length BUFSIZ _ ws ds _ 0 hws hne hds hfit hlen,
      read_headers_skip BUFSIZ post _ hpost,
      read_headers_blank BUFSIZ 0 body _ hbuf]
  have hle : ((0 + 1) + post.length + 1) + pre.length
      ≤ (unlines pre ++ ("Content-Length:".toList ++ ws ++ ds ++ "\r\n".toList
        ++ (unlines post ++ '\r' :: '\n' :: body))).length + 1 := by
    have h1 := length_le_unlines pre
    have h2 := length_le_unlines post
    simp only [List.length_append, List.length_cons]
    omega
  obtain ⟨k, hk⟩ := Nat.exists_eq_add_of_le hle
  rw [hk]
  exact read_headers_mono BUFSIZ _ _ 0 _ hmin k

theorem store_append_new (h : Heap) (c : Option Request) (r : Request) :
    store (h ++ [c]) h.length r = h ++ [some r] := by
  simp [store]

theorem incomingBodies_snoc {h h1 : Heap} {mq mq1 : MessageQueue} {li : List Ptr} {p : Ptr}
    (b : Option CString) (hi : Holds h mq.incoming li) (hi1 : Holds h1 mq1.incoming (li ++ [p]))
    (hold : ∀ x ∈ li, (deref h1 x).map payload = (deref h x).map payload)
    (hnew : (deref h1 p).bind Request.body = b) :
    incomingBodies h1 mq1 = incomingBodies h mq ++ [b] := by
  unfold incomingBodies
  rw [contents_of_holds hi, contents_of_holds hi1, List.map_append]
  congr 1
  · apply List.map_congr_left
    intro x hx
    have hp := hold x hx
    cases hd1 : deref h1 x <;> cases hd : deref h x <;> simp [hd1, hd, payload] at hp ⊢
    exact hp.2.2
  · simp [hnew]

/-! ## Chunks of the response -/

theorem readLine_chunk : ∀ (c : List Char) (k : Nat) (rest : List Char), c ≠ [] →
    '\n' ∉ c.dropLast → c.length ≤ k → (c.getLast? = some '\n' ∨ c.length = k) →
    readLine k (c ++ rest) = (c, rest) := by
  intro c
  induction c with
  | nil =>
    intro k rest hne
    exact absurd rfl hne
  | cons x t ih =>
    intro k rest _ hnl hlen hend
    obtain ⟨k1, rfl⟩ : ∃ k1, k = k1 + 1 := ⟨k - 1, by simp at hlen; omega⟩
    cases t with
    | nil =>
      by_cases hx : x = '\n'
      · simp [readLine, hx]
      · have hk1 : k1 = 0 := by
          rcases hend with hlast | hk
          · simp at hlast
            exact absurd hlast hx
          · simpa using hk.symm
        subst hk1
        simp [readLine, hx]
    | cons y t1 =>
      have hx : x ≠ '\n' := by
        intro hEq
        apply hnl
        simp [hEq]
      have hnl1 : '\n' ∉ (y :: t1).dropLast := by
        intro hmem
        apply hnl
        simp only [List.dropLast_cons₂]
        exact List.mem_cons_of_mem _ hmem
      have hlen1 : (y :: t1).length ≤ k1 := by
        simp only [List.length_cons] at hlen ⊢
        omega
      have hend1 : (y :: t1).getLast? = some '\n' ∨ (y :: t1).length = k1 := by
        rcases hend with hlast | hk
        · left
          rw [List.getLast?_cons_cons] at hlast
          exact hlast
        · right
          simp only [List.length_cons] at hk ⊢
          omega
      have hrec := ih k1 rest (by simp) hnl1 hlen1 hend1
      simp only [List.cons_append] at hrec ⊢
      simp only [readLine, hx, if_false, hrec]

theorem fgets_chunk {BUFSIZ : Nat} {c : List Char} (rest : List Char)
    (hc : Chunk BUFSIZ c) : fgets BUFSIZ (c ++ rest) = some (c, rest) := by
  obtain ⟨hne, hnl, hlen, hend⟩ := hc
  have hr := readLine_chunk c (BUFSIZ - 1) rest hne hnl (by omega)
    (hend.imp id (fun hk => by omega))
  cases c with
  | nil => exact absurd rfl hne
  | cons x t => simpa [fgets] using hr

theorem length_le_joined (cs : List (List Char)) (hne : ∀ c ∈ cs, c ≠ []) :
    cs.length ≤ (joined cs).length := by
  induction cs with
  | nil => simp [joined]
  | cons c cs1 ih =>
    have hc : 1 ≤ c.length := by
      have := hne c (List.mem_cons_self _ _)
      cases c with
      | nil => exact absurd rfl this
      | cons x t => simp
    have := ih (fun x hx => hne x (List.mem_cons_of_mem _ hx))
    simp only [joined, List.length_cons, List.length_append]
    omega

/-! ## The `sscanf` call on a chunk -/

theorem takeWhile_append_trail {p : Char → Bool} {ds : List Char} (trail : List Char)
    (hds : ∀ x ∈ ds, p x = true) (ht : ∀ c, trail.head? = some c → p c = false) :
    (ds ++ trail).takeWhile p = ds := by
  cases trail with
  | nil =>
    rw [List.append_nil, List.takeWhile_eq_self_iff]
    exact hds
  | cons c r => exact takeWhile_append_stop c r hds (ht c rfl)

/-- A chunk that declares `n` sets `length` to `n`. -/
theorem sscanf_declares {s : CString} {n : Nat} (k : Nat) (hs : Declares s n)
    (hfit : n < 2 ^ 64) : sscanf_content_length s k = .ok n := by
  obtain ⟨ws, sign, ds, trail, rfl, hws, hsign, hne, hds, hval, htrail⟩ := hs
  obtain ⟨d, ds1, rfl⟩ := List.exists_cons_of_ne_nil hne
  have hd := hds d (List.mem_cons_self _ _)
  obtain ⟨hminus, hplus⟩ := not_sign_of_isDigit hd
  have hm : matchLiteral "Content-Length:".toList
      ("Content-Length:".toList ++ ws ++ sign ++ (d :: ds1) ++ trail)
      = some (ws ++ (sign ++ (d :: ds1 ++ trail))) := by
    rw [List.append_assoc, List.append_assoc, List.append_assoc]
    exact matchLiteral_append _ _
  have htake : (d :: ds1 ++ trail).takeWhile Char.isDigit = d :: ds1 :=
    takeWhile_append_trail trail hds htrail
  have hfit1 : digitsValue (d :: ds1) < 2 ^ 64 := by
    rw [hval]
    exact hfit
  rcases hsign with rfl | rfl
  · have hdrop : (ws ++ ([] ++ (d :: ds1 ++ trail))).dropWhile isspace
        = d :: ds1 ++ trail := by
      rw [List.nil_append, dropWhile_append_all _ hws]
      simp [List.dropWhile_cons, isspace_of_isDigit hd]
    have hsgn : ¬ ((d :: ds1 ++ trail).head? = some '-'
        ∨ (d :: ds1 ++ trail).head? = some '+') := by
      simp [hminus, hplus]
    simp only [sscanf_content_length, hm, hdrop, if_neg hsgn, htake, hfit1, if_true]
    simp [hminus, hval]
  · have hdrop : (ws ++ (['+'] ++ (d :: ds1 ++ trail))).dropWhile isspace
        = '+' :: (d :: ds1 ++ trail) := by
      rw [dropWhile_append_all _ hws]
      simp [List.dropWhile_cons, isspace]
    have hsgn : ('+' :: (d :: ds1 ++ trail)).head? = some '-'
        ∨ ('+' :: (d :: ds1 ++ trail)).head? = some '+' := Or.inr rfl
    simp only [sscanf_content_length, hm, hdrop, if_pos hsgn, List.tail_cons, htake, hfit1,
      if_true]
    simp [hval]

/-- Whether the `sscanf` call faults does not depend on the value of `length`. -/
theorem sscanf_ok_of_noOverflow {c : List Char} (hc : NoOverflow c) (k : Nat) :
    ∃ k1, sscanf_content_length (cstr c) k = .ok k1 := by
  unfold NoOverflow sscanf_content_length at hc
  unfold sscanf_content_length
  cases hm : matchLiteral "Content-Length:".toList (cstr c) with
  | none => exact ⟨k, rfl⟩
  | some rest =>
    simp only [hm] at hc ⊢
    by_cases hds : List.takeWhile Char.isDigit
        (if (List.dropWhile isspace rest).head? = some '-'
            ∨ (List.dropWhile isspace rest).head? = some '+' then
          (List.dropWhile isspace rest).tail
        else List.dropWhile isspace rest) = []
    · exact ⟨k, by rw [if_pos hds]⟩
    · rw [if_neg hds] at hc ⊢
      by_cases hbig : digitsValue (List.takeWhile Char.isDigit
          (if (List.dropWhile isspace rest).head? = some '-'
              ∨ (List.dropWhile isspace rest).head? = some '+' then
            (List.dropWhile isspace rest).tail
          else List.dropWhile isspace rest)) < 2 ^ 64
      · exact ⟨_, by rw [if_pos hbig]⟩
      · rw [if_neg hbig] at hc
        exact absurd hc (by decide)

/-- A chunk that does not start with `Content-Length:` leaves `length` as it is. -/
theorem keepsLength_of_no_prefix {c : List Char} (n : Nat)
    (hno : ¬ "Content-Length:".toList <+: cstr c) : KeepsLength n c :=
  sscanf_no_match n hno

/-! ## The header loop on chunks -/

theorem read_headers_chunk (BUFSIZ fuel : Nat) {c : List Char} (rest : List Char)
    (k k1 : Nat) (hc : HeaderChunk BUFSIZ c)
    (hscan : sscanf_content_length (cstr c) k = .ok k1) :
    read_headers BUFSIZ (fuel + 1) (c ++ rest) k = read_headers BUFSIZ fuel rest k1 := by
  rw [read_headers, fgets_chunk rest hc.1]
  simp only [hc.2, if_false, hscan]

theorem read_headers_pre (BUFSIZ : Nat) (cs : List (List Char)) (rest : List Char)
    (hcs : ∀ c ∈ cs, HeaderChunk BUFSIZ c ∧ NoOverflow c) : ∀ (fuel k : Nat),
    ∃ k1, read_headers BUFSIZ (fuel + cs.length) (joined cs ++ rest) k
      = read_headers BUFSIZ fuel rest k1 := by
  induction cs with
  | nil =>
    intro fuel k
    exact ⟨k, rfl⟩
  | cons c cs1 ih =>
    intro fuel k
    obtain ⟨hc, hno⟩ := hcs c (List.mem_cons_self _ _)
    obtain ⟨k1, hk1⟩ := sscanf_ok_of_noOverflow hno k
    obtain ⟨k2, hk2⟩ := ih (fun x hx => hcs x (List.mem_cons_of_mem _ hx)) fuel k1
    refine ⟨k2, ?_⟩
    have hsh : joined (c :: cs1) ++ rest = c ++ (joined cs1 ++ rest) := by
      simp [joined]
    rw [hsh, List.length_cons, ← Nat.add_assoc,
      read_headers_chunk BUFSIZ (fuel + cs1.length) (joined cs1 ++ rest) k k1 hc hk1]
    exact hk2

theorem read_headers_post (BUFSIZ n : Nat) (cs : List (List Char)) (rest : List Char)
    (hcs : ∀ c ∈ cs, HeaderChunk BUFSIZ c ∧ KeepsLength n c) : ∀ (fuel : Nat),
    read_headers BUFSIZ (fuel + cs.length) (joined cs ++ rest) n
      = read_headers BUFSIZ fuel rest n := by
  induction cs with
  | nil =>
    intro fuel
    rfl
  | cons c cs1 ih =>
    intro fuel
    obtain ⟨hc, hkeep⟩ := hcs c (List.mem_cons_self _ _)
    have hsh : joined (c :: cs1) ++ rest = c ++ (joined cs1 ++ rest) := by
      simp [joined]
    rw [hsh, List.length_cons, ← Nat.add_assoc,
      read_headers_chunk BUFSIZ (fuel + cs1.length) (joined cs1 ++ rest) n n hc hkeep]
    exact ih (fun x hx => hcs x (List.mem_cons_of_mem _ hx)) fuel

theorem cstr_length_le (c : List Char) : (cstr c).length ≤ c.length := by
  unfold cstr
  exact (List.takeWhile_sublist _).length_le

/-- The header loop on a header part in which `decl` declares `n`, no earlier
chunk overflows and every later chunk keeps `n`. -/
theorem read_headers_chunks (BUFSIZ n : Nat) (pre post : List (List Char))
    (decl body : List Char)
    (hpre : ∀ c ∈ pre, HeaderChunk BUFSIZ c ∧ NoOverflow c)
    (hdecl : HeaderChunk BUFSIZ decl) (hn : Declares (cstr decl) n)
    (hpost : ∀ c ∈ post, HeaderChunk BUFSIZ c ∧ KeepsLength n c)
    (hfit : n < 2 ^ 64) :
    read_headers BUFSIZ
      ((joined pre ++ (decl ++ (joined post ++ '\r' :: '\n' :: body))).length + 1)
      (joined pre ++ (decl ++ (joined post ++ '\r' :: '\n' :: body))) 0
      = .ok (n, body) := by
  have hbuf : 3 ≤ BUFSIZ := by
    obtain ⟨ws, sign, ds, trail, hs, _⟩ := hn
    have h1 := cstr_length_le decl
    have h2 := hdecl.1.2.2.1
    have h15 : "Content-Length:".toList.length = 15 := rfl
    rw [hs] at h1
    simp only [List.length_append] at h1
    omega
  obtain ⟨k1, hk1⟩ := read_headers_pre BUFSIZ pre
    (decl ++ (joined post ++ '\r' :: '\n' :: body)) hpre ((0 + 1) + post.length + 1) 0
  have hmin : read_headers BUFSIZ (((0 + 1) + post.length + 1) + pre.length)
      (joined pre ++ (decl ++ (joined post ++ '\r' :: '\n' :: body))) 0 = .ok (n, body) := by
    rw [hk1, read_headers_chunk BUFSIZ _ _ k1 n hdecl (sscanf_declares k1 hn hfit),
      read_headers_post BUFSIZ n post _ hpost, read_headers_blank BUFSIZ 0 body _ hbuf]
  have hle : ((0 + 1) + post.length + 1) + pre.length
      ≤ (joined pre ++ (decl ++ (joined post ++ '\r' :: '\n' :: body))).length + 1 := by
    have h1 := length_le_joined pre (fun c hc => (hpre c hc).1.1.1)
    have h2 := length_le_joined post (fun c hc => (hpost c hc).1.1.1)
    simp only [List.length_append, List.length_cons]
    omega
  obtain ⟨k, hk⟩ := Nat.exists_eq_add_of_le hle
  rw [hk]
  exact read_headers_mono BUFSIZ _ _ 0 _ hmin k

/-! ## C7: one iteration of the puller -/

/-- C7 (as amended): let a GET response be read by `fgets` as a first chunk
that contains `200 OK`, header chunks, the blank line `\r\n` and the body, where
one header chunk `decl` declares the length `n` (`Content-Length:` spelled
exactly so from its first byte, any white space, an optional `+`, a decimal
numeral of value `n`), no earlier header chunk declares a number beyond
`unsigned long`, every later header chunk leaves the length at `n`, and the
first `n` body bytes hold no NUL. Let `n + 1 < 2 ^ 64`, let `calloc` grant
`n + 1` bytes (`n + 1 ≤ room`), and let `/queue/<name>` fit the `uri` buffer.
Then one iteration of `mq_puller` on a client with a well-formed incoming queue
returns, having written the poll request `GET /queue/<name> HTTP/1.0\r\n\r\n`
and appended to `incoming` exactly one request, whose body is exactly the
first `n` bytes after the blank line (all of them when the peer sends fewer
than `n`). -/
theorem C7_puller_enqueues_declared_body (BUFSIZ room : Nat) (h : Heap)
    (mq : MessageQueue) (li : List Ptr) (first decl body : List Char)
    (pre post : List (List Char)) (n : Nat)
    (hi : Holds h mq.incoming li) (hname : mq.name.length + 8 ≤ BUFSIZ)
    (hfirst : Chunk BUFSIZ first) (hok : "200 OK".toList <:+: cstr first)
    (hpre : ∀ c ∈ pre, HeaderChunk BUFSIZ c ∧ NoOverflow c)
    (hdecl : HeaderChunk BUFSIZ decl) (hn : Declares (cstr decl) n)
    (hpost : ∀ c ∈ post, HeaderChunk BUFSIZ c ∧ KeepsLength n c)
    (hfit : n + 1 < 2 ^ 64) (hroom : n + 1 ≤ room)
    (hnul : '\x00' ∉ body.take n) :
    ∃ h1 mq1 p, mq_puller_body BUFSIZ h mq (some (first ++
        (joined pre ++ (decl ++ (joined post ++ '\r' :: '\n' :: body))))) room
        = .ok (h1, mq1, some ("GET /queue/".toList ++ mq.name ++ " HTTP/1.0\r\n\r\n".toList)) ∧
      contents h1 mq1.incoming = contents h mq.incoming ++ [p] ∧
      p ∉ contents h mq.incoming ∧
      (deref h1 p).bind Request.body = some (body.take n) ∧
      incomingBodies h1 mq1 = incomingBodies h mq ++ [some (body.take n)] ∧
      mq1.outgoing = mq.outgoing := by
  have huri : ("/queue/".toList ++ mq.name).length + 1 ≤ BUFSIZ := by
    simp only [List.length_append]
    have : "/queue/".toList.length = 7 := rfl
    omega
  have hcell : (deref (h ++ [some ⟨some "GET".toList, some ("/queue/".toList ++ mq.name),
      none, none⟩]) h.length).map payload
      = some (some "GET".toList, some ("/queue/".toList ++ mq.name), none) := by
    rw [deref_append_new]
    rfl
  have hw := request_write_eq hcell []
  obtain ⟨sfx, hsfx⟩ := Option.isSome_iff_exists.1 (strstr_found hok)
  have hhead := read_headers_chunks BUFSIZ n pre post decl body hpre hdecl hn hpost
    (by omega)
  obtain ⟨h1, q1, hpush, hq1, _, hpay, hold, _⟩ :=
    enqueue_new (some "GET".toList) (some ("/queue/".toList ++ mq.name))
      (some (body.take n)) hi
  have hnewbody : (deref h1 h.length).bind Request.body = some (body.take n) := by
    cases hd : deref h1 h.length with
    | none => simp [hd] at hpay
    | some r =>
      simp only [hd, Option.map_some', payload, Option.some.injEq, Prod.mk.injEq] at hpay
      simp [hpay.2.2]
  have hi1 : Holds h1 ({ mq with incoming := q1 } : MessageQueue).incoming (li ++ [h.length]) :=
    hq1
  have hcond : n + 1 < 2 ^ 64 ∧ n + 1 ≤ room := ⟨hfit, hroom⟩
  refine ⟨h1, { mq with incoming := q1 }, h.length, ?_, ?_, ?_, hnewbody, ?_, rfl⟩
  · simp only [mq_puller_body, sprintf, huri, if_true, request_create_eq, hw,
      fgets_chunk _ hfirst, hsfx, hhead, deref_append_new, if_pos hcond,
      store_append_new, cstr_eq_self hnul, hpush]
    simp [wire]
  · rw [contents_of_holds hq1, contents_of_holds hi]
  · rw [contents_of_holds hi]
    exact fun hmem => Nat.lt_irrefl _ (holds_lt hi _ hmem)
  · exact incomingBodies_snoc _ hi hi1 (fun x hx => hold x (holds_lt hi x hx)) hnewbody

/-- Witness for C7, at two responses to a fresh client. With `BUFSIZ = 8192`:
a header holding a NUL before the declaring line, the declaring line
`Content-Length: 5 ` with a trailing blank, a later `Content-Length: none`
line, and the body `hello world`. With `BUFSIZ = 64`: a header line of 70
characters, read as two chunks, before `Content-Length: +5`. -/
theorem C7_puller_enqueues_declared_body_witness :
    (∃ h1 mq1 p, mq_puller_body 8192 [] freshClient (some ("HTTP/1.0 200 OK\r\n".toList ++
        (joined ["Server: mock\r\n".toList, "X-Note: a\x00b\r\n".toList]
          ++ ("Content-Length: 5 \r\n".toList
          ++ (joined ["Content-Length: none\r\n".toList]
          ++ '\r' :: '\n' :: "hello world".toList))))) 4096
        = .ok (h1, mq1, some ("GET /queue/".toList ++ freshClient.name
            ++ " HTTP/1.0\r\n\r\n".toList)) ∧
      contents h1 mq1.incoming = contents [] freshClient.incoming ++ [p] ∧
      p ∉ contents [] freshClient.incoming ∧
      (deref h1 p).bind Request.body = some ("hello world".toList.take 5) ∧
      incomingBodies h1 mq1 = incomingBodies [] freshClient
        ++ [some ("hello world".toList.take 5)] ∧
      mq1.outgoing = freshClient.outgoing) ∧
    (∃ h1 mq1 p, mq_puller_body 64 [] freshClient (some ("HTTP/1.0 200 OK\r\n".toList ++
        (joined ["X-Long: ".toList ++ List.replicate 55 'a', "aaaaaaa\r\n".toList]
          ++ ("Content-Length: +5\r\n".toList
          ++ (joined [] ++ '\r' :: '\n' :: "hello".toList))))) 6
        = .ok (h1, mq1, some ("GET /queue/".toList ++ freshClient.name
            ++ " HTTP/1.0\r\n\r\n".toList)) ∧
      contents h1 mq1.incoming = contents [] freshClient.incoming ++ [p] ∧
      p ∉ contents [] freshClient.incoming ∧
      (deref h1 p).bind Request.body = some ("hello".toList.take 5) ∧
      incomingBodies h1 mq1 = incomingBodies [] freshClient
        ++ [some ("hello".toList.take 5)] ∧
      mq1.outgoing = freshClient.outgoing) :=
  ⟨C7_puller_enqueues_declared_body 8192 4096 [] freshClient [] "HTTP/1.0 200 OK\r\n".toList
      "Content-Length: 5 \r\n".toList "hello world".toList
      ["Server: mock\r\n".toList, "X-Note: a\x00b\r\n".toList]
      ["Content-Length: none\r\n".toList] 5 (holds_create []) (by decide) (by decide)
      (by decide) (by decide) (by decide)
      ⟨" ".toList, [], "5".toList, " \r\n".toList, rfl, by decide, Or.inl rfl, by decide,
        by decide, rfl, by decide⟩
      (by decide) (by decide) (by decide) (by decide),
    C7_puller_enqueues_declared_body 64 6 [] freshClient [] "HTTP/1.0 200 OK\r\n".toList
      "Content-Length: +5\r\n".toList "hello".toList
      ["X-Long: ".toList ++ List.replicate 55 'a', "aaaaaaa\r\n".toList] [] 5
      (holds_create []) (by decide) (by decide) (by decide) (by decide) (by decide)
      ⟨" ".toList, ['+'], "5".toList, "\r\n".toList, rfl, by decide, Or.inr rfl, by decide,
        by decide, rfl, by decide⟩
      (fun _ hc => nomatch hc) (by decide) (by decide) (by decide)⟩

/-- Counterexample to C7 as stated: after `200 OK`, the header written
`content-length: 5` (other letter case) or `Content-Length : 5` (a blank before
the colon) leaves `length` at 0, so the request appended to `incoming` has the
empty body instead of `hello`; and for `Content-Length: 10000000000000000000`
`calloc` returns NULL on a machine with a 48-bit address space, `fread` is
handed the null pointer, and no request is appended. -/
theorem C7_counterexample_header_case_and_spacing :
    (match mq_puller_body 8192 [] freshClient
        (some "HTTP/1.0 200 OK\r\ncontent-length: 5\r\n\r\nhello".toList) 4096 with
      | .ok (h1, mq1, _) => incomingBodies h1 mq1
      | .error _ => []) = [some []] ∧
    (match mq_puller_body 8192 [] freshClient
        (some "HTTP/1.0 200 OK\r\nContent-Length : 5\r\n\r\nhello".toList) 4096 with
      | .ok (h1, mq1, _) => incomingBodies h1 mq1
      | .error _ => []) = [some []] ∧
    mq_puller_body 8192 [] freshClient
        (some "HTTP/1.0 200 OK\r\nContent-Length: 10000000000000000000\r\n\r\nhello".toList)
        (2 ^ 48) = .error .fault := by
  refine ⟨rfl, rfl, ?_⟩
  decide

/-- Responses on which the puller still enqueues the five declared bytes: a
NUL in another header; a second, unparsable `Content-Length` line; a header
line longer than the buffer (`BUFSIZ = 64`); a blank after the numeral; other
headers around a declaration with a tab and a blank. -/
theorem puller_tolerated_responses :
    (match mq_puller_body 8192 [] freshClient (some
        "HTTP/1.0 200 OK\r\nX-Note: a\x00b\r\nContent-Length: 5\r\n\r\nhello".toList) 4096 with
      | .ok (h1, mq1, _) => incomingBodies h1 mq1
      | .error _ => []) = [some "hello".toList] ∧
    (match mq_puller_body 8192 [] freshClient (some
        "HTTP/1.0 200 OK\r\nContent-Length: 5\r\nContent-Length: none\r\n\r\nhello".toList)
        4096 with
      | .ok (h1, mq1, _) => incomingBodies h1 mq1
      | .error _ => []) = [some "hello".toList] ∧
    (match mq_puller_body 64 [] freshClient (some
        ("HTTP/1.0 200 OK\r\nX-Long: ".toList ++ List.replicate 62 'a'
          ++ "\r\nContent-Length: 5\r\n\r\nhello".toList)) 4096 with
      | .ok (h1, mq1, _) => incomingBodies h1 mq1
      | .error _ => []) = [some "hello".toList] ∧
    (match mq_puller_body 8192 [] freshClient (some
        "HTTP/1.0 200 OK\r\nContent-Length: 5 \r\n\r\nhello".toList) 4096 with
      | .ok (h1, mq1, _) => incomingBodies h1 mq1
      | .error _ => []) = [some "hello".toList] ∧
    (match mq_puller_body 8192 [] freshClient (some
        "HTTP/1.0 200 OK\r\nServer: mock\r\nContent-Length:\t 5\r\nX-Id: 7\r\n\r\nhello world".toList)
        4096 with
      | .ok (h1, mq1, _) => incomingBodies h1 mq1
      | .error _ => []) = [some "hello".toList] := by
  refine ⟨rfl, rfl, ?_, rfl, rfl⟩
  decide

/-! ## C10: producers and consumers on one queue -/

theorem live_of_payload {h h1 : Heap} {x : Ptr}
    (hpay : (deref h1 x).map payload = (deref h x).map payload)
    (hx : (deref h x).isSome) : (deref h1 x).isSome := by
  cases hdx : deref h x with
  | none => simp [hdx] at hx
  | some r =>
    cases hdx1 : deref h1 x with
    | none => simp [hdx, hdx1] at hpay
    | some r1 => rfl

/-- Linearization: every schedule runs to its end; the returned requests
followed by the queued ones are the initially queued ones followed by the
pushed ones; the queue ends with as many requests as the schedule leaves
pending; and every return is that of a scheduled `pop`. -/
theorem runQueue_holds : ∀ (sched : List QEvent) {h : Heap} {q : Queue} {l : List Ptr},
    Holds h q l → (l ++ (pushes sched).map Prod.snd).Nodup →
    (∀ p ∈ (pushes sched).map Prod.snd, (deref h p).isSome) →
    ∃ h1 q1 log l1, runQueue h q sched = .ok (h1, q1, log) ∧ Holds h1 q1 l1 ∧
      log.map Prod.snd ++ l1.map some = (l ++ (pushes sched).map Prod.snd).map some ∧
      l1.length = pending l.length sched ∧
      (∀ e ∈ log, e.1 ∈ popThreads sched) := by
  intro sched
  induction sched with
  | nil =>
    intro h q l hq _ _
    exact ⟨h, q, [], l, rfl, hq, by simp [pushes], rfl, fun _ he => nomatch he⟩
  | cons e es ih =>
    intro h q l hq hnd hlive
    cases e with
    | push t r =>
      simp only [pushes, List.map_cons] at hnd hlive
      have hrl : r ∉ l := by
        intro hmem
        exact (List.nodup_append.1 hnd).2.2 hmem (List.mem_cons_self _ _)
      obtain ⟨rq, hrq⟩ := Option.isSome_iff_exists.1 (hlive r (List.mem_cons_self _ _))
      obtain ⟨h1, q1, hpush, hq1, _, hpay, _⟩ := queue_push_holds hq hrl hrq
      have hnd1 : ((l ++ [r]) ++ (pushes es).map Prod.snd).Nodup := by simpa using hnd
      have hlive1 : ∀ p ∈ (pushes es).map Prod.snd, (deref h1 p).isSome :=
        fun p hp => live_of_payload (hpay p) (hlive p (List.mem_cons_of_mem _ hp))
      obtain ⟨h2, q2, log, l2, hrun, hq2, hlog, hlen, hthr⟩ := ih hq1 hnd1 hlive1
      refine ⟨h2, q2, log, l2, ?_, hq2, ?_, ?_, ?_⟩
      · simp only [runQueue, hpush, hrun]
      · rw [hlog]
        simp [pushes]
      · rw [hlen]
        simp [pending]
      · simpa [popThreads] using hthr
    | pop t =>
      simp only [pushes] at hnd hlive
      cases l with
      | nil =>
        have hs : q.size = 0 := hq.2.2.1
        obtain ⟨h2, q2, log, l2, hrun, hq2, hlog, hlen, hthr⟩ := ih hq hnd hlive
        refine ⟨h2, q2, log, l2, ?_, hq2, by simpa [pushes] using hlog, ?_, ?_⟩
        · simp only [runQueue, queue_pop, hs, if_true, hrun]
        · rw [hlen]
          simp [pending]
        · intro e he
          exact List.mem_cons_of_mem _ (hthr e he)
      | cons p l1 =>
        obtain ⟨q1, hpop, hq1⟩ := queue_pop_holds hq
        have hnd1 : (l1 ++ (pushes es).map Prod.snd).Nodup := by
          rw [List.cons_append] at hnd
          exact (List.nodup_cons.1 hnd).2
        obtain ⟨h2, q2, log, l2, hrun, hq2, hlog, hlen, hthr⟩ := ih hq1 hnd1 hlive
        refine ⟨h2, q2, (t, some p) :: log, l2, ?_, hq2, ?_, ?_, ?_⟩
        · simp only [runQueue, hpop, hrun]
        · simp only [pushes, List.map_cons, List.cons_append, hlog]
        · rw [hlen]
          simp [pending]
        · intro e he
          rcases List.mem_cons.1 he with rfl | hmem
          · exact List.mem_cons_self _ _
          · exact List.mem_cons_of_mem _ (hthr e hmem)

theorem length_of_counts : ∀ (P K : Nat) (ts : List Nat), (∀ t ∈ ts, t < P) →
    (∀ t, t < P → ts.count t = K) → ts.length = P * K := by
  intro P K
  induction P with
  | zero =>
    intro ts hlt _
    cases ts with
    | nil => simp
    | cons t ts1 => exact absurd (hlt t (List.mem_cons_self _ _)) (Nat.not_lt_zero _)
  | succ n ih =>
    intro ts hlt hcount
    have hsplit := List.length_eq_countP_add_countP (fun t => decide (t = n)) ts
    have hc1 : ts.countP (fun t => decide (t = n)) = K := by
      have := hcount n (Nat.lt_succ_self n)
      rw [List.count_eq_countP] at this
      rw [← this]
      apply List.countP_congr
      intro x _
      simp
    have hrest : (ts.filter (fun t => ¬ decide (t = n) = true)).length = n * K := by
      apply ih
      · intro t ht
        have hmem := List.mem_filter.1 ht
        have h1 := hlt t hmem.1
        have h2 : t ≠ n := by simpa using hmem.2
        omega
      · intro t ht
        rw [List.count_filter]
        · exact hcount t (Nat.lt_succ_of_lt ht)
        · have : t ≠ n := Nat.ne_of_lt ht
          simpa using this
    rw [List.countP_eq_length_filter (fun t => ¬ decide (t = n) = true)] at hsplit
    rw [hsplit, hc1, hrest]
    ring

theorem countP_some_eq_one (r : Ptr) : ∀ (l : List Ptr), l.Nodup → r ∈ l →
    (l.map some).countP (fun x => decide (x = some r)) = 1 := by
  intro l hl hr
  rw [List.countP_map]
  have h1 := List.count_eq_one_of_mem hl hr
  rw [List.count_eq_countP] at h1
  rw [← h1]
  apply List.countP_congr
  intro x _
  simp

theorem countP_snd (r : Ptr) (log : List (Nat × Option Ptr)) :
    log.countP (fun e => decide (e.2 = some r))
      = (log.map Prod.snd).countP (fun x => decide (x = some r)) := by
  rw [List.countP_map]
  rfl

/-- C10: let a schedule interleave the `queue_push` calls of `P` producers,
each pushing `K` times, with the `queue_pop` calls of `C` consumers that pop
until the queue is empty (`pending 0 sched = 0`), on the queue of
`queue_create`, the pushed requests being pairwise distinct live objects. Then
the schedule runs to its end, the queue is left empty (size 0, `head` and
`tail` null), and the `queue_pop` calls that returned delivered, in order,
exactly the pushed requests: every pushed request is returned by exactly one
`queue_pop` call, every returned pointer is a pushed request, every return is
to one of the `C` consumers, and `P * K` calls returned. -/
theorem C10_every_request_delivered_once (P K C : Nat) (h : Heap) (sched : List QEvent)
    (hnd : ((pushes sched).map Prod.snd).Nodup)
    (hlive : ∀ r ∈ (pushes sched).map Prod.snd, (deref h r).isSome)
    (hprod : ∀ t ∈ (pushes sched).map Prod.fst, t < P)
    (hK : ∀ t, t < P → ((pushes sched).map Prod.fst).count t = K)
    (hcons : ∀ t ∈ popThreads sched, t < C)
    (hdrain : pending 0 sched = 0) :
    ∃ h1 log, runQueue h queue_create sched
        = .ok (h1, { head := none, tail := none, size := 0 }, log) ∧
      log.map Prod.snd = ((pushes sched).map Prod.snd).map some ∧
      (∀ r ∈ (pushes sched).map Prod.snd, log.countP (fun e => e.2 = some r) = 1) ∧
      (∀ e ∈ log, ∃ r ∈ (pushes sched).map Prod.snd, e.2 = some r) ∧
      (∀ e ∈ log, e.1 < C) ∧
      log.length = P * K := by
  obtain ⟨h1, q1, log, l1, hrun, hq1, hlog, hlen1, hthr⟩ :=
    runQueue_holds sched (holds_create h) (by simpa using hnd) hlive
  have hl1 : l1 = [] := by
    rw [List.length_nil, hdrain] at hlen1
    exact List.length_eq_zero.1 hlen1
  subst hl1
  have hq1c : q1 = queue_create := holds_nil_eq hq1
  subst hq1c
  simp only [List.map_nil, List.append_nil, List.nil_append] at hlog
  have hlen : log.length = ((pushes sched).map Prod.snd).length := by
    have := congrArg List.length hlog
    simpa using this
  refine ⟨h1, log, hrun, hlog, ?_, ?_, ?_, ?_⟩
  · intro r hr
    rw [countP_snd r log, hlog]
    exact countP_some_eq_one r _ hnd hr
  · intro e he
    have hmem : e.2 ∈ ((pushes sched).map Prod.snd).map some := by
      rw [← hlog]
      exact List.mem_map_of_mem _ he
    obtain ⟨r, hr, hre⟩ := List.mem_map.1 hmem
    exact ⟨r, hr, hre.symm⟩
  · intro e he
    exact hcons e.1 (hthr e he)
  · rw [hlen, List.length_map, ← List.length_map (pushes sched) Prod.fst]
    exact length_of_counts P K _ hprod hK

/-- Witness for C10: two producers pushing two requests each, two consumers,
pops interleaved with the pushes (the first of them on the empty queue). -/
theorem C10_every_request_delivered_once_witness :
    ∃ h1 log, runQueue (List.replicate 4 (some ⟨none, none, none, none⟩)) queue_create
        [.pop 0, .push 0 2, .push 1 0, .pop 1, .push 1 3, .pop 0, .push 0 1, .pop 0, .pop 1]
        = .ok (h1, { head := none, tail := none, size := 0 }, log) ∧
      log.map Prod.snd = ((pushes [.pop 0, .push 0 2, .push 1 0, .pop 1, .push 1 3,
        .pop 0, .push 0 1, .pop 0, .pop 1]).map Prod.snd).map some ∧
      (∀ r ∈ (pushes [.pop 0, .push 0 2, .push 1 0, .pop 1, .push 1 3, .pop 0,
        .push 0 1, .pop 0, .pop 1]).map Prod.snd, log.countP (fun e => e.2 = some r) = 1) ∧
      (∀ e ∈ log, ∃ r ∈ (pushes [.pop 0, .push 0 2, .push 1 0, .pop 1, .push 1 3, .pop 0,
        .push 0 1, .pop 0, .pop 1]).map Prod.snd, e.2 = some r) ∧
      (∀ e ∈ log, e.1 < 2) ∧
      log.length = 2 * 2 :=
  C10_every_request_delivered_once 2 2 2 _ _ (by decide) (by decide) (by decide) (by decide)
    (by decide) (by decide)

/-- The run of the schedule of the witness of C10: the queue ends empty and the
four pops that returned delivered the requests 2, 0, 3, 1 in push order. -/
theorem runQueue_example :
    (match runQueue (List.replicate 4 (some ⟨none, none, none, none⟩)) queue_create
        [.pop 0, .push 0 2, .push 1 0, .pop 1, .push 1 3, .pop 0, .push 0 1, .pop 0, .pop 1] with
      | .ok (_, q1, log) => some (q1, log)
      | .error _ => none)
      = some (⟨none, none, 0⟩, [(1, some 2), (0, some 0), (0, some 3), (1, some 1)]) := by
  rfl

/-- Progress of the consumers: whatever a schedule leaves in the queue, that
many further `pop` actions return exactly the queued requests, in order, and
empty the queue. -/
theorem runQueue_drain {h : Heap} : ∀ (l : List Ptr) {q : Queue} (ts : List Nat),
    Holds h q l → ts.length = l.length →
    runQueue h q (ts.map QEvent.pop)
      = .ok (h, { head := none, tail := none, size := 0 }, ts.zip (l.map some)) := by
  intro l
  induction l with
  | nil =>
    intro q ts hq hlen
    have hts : ts = [] := List.length_eq_zero.1 hlen
    subst hts
    have hqc := holds_nil_eq hq
    subst hqc
    rfl
  | cons p l1 ih =>
    intro q ts hq hlen
    cases ts with
    | nil => simp at hlen
    | cons t ts1 =>
      obtain ⟨q1, hpop, hq1⟩ := queue_pop_holds hq
      have hrest := ih ts1 hq1 (by simpa using hlen)
      simp only [List.map_cons, runQueue, hpop, hrest, List.zip_cons_cons]

/-! ## The invariant of the running client -/

/-- The steps `stopFlag` and `stopPublish` together are `mq_stop` up to its joins. -/
theorem stop_steps_eq_mq_stop (BUFSIZ : Nat) (s : Sys) (h1 : Heap) (mq1 : MessageQueue)
    (happ : s.app = .running) (hstop : mq_stop BUFSIZ s.heap s.mq = .ok (h1, mq1)) :
    run BUFSIZ s [.stopFlag, .stopPublish]
      = some { s with heap := h1, mq := mq1, app := .sentinelQueued } := by
  unfold mq_stop at hstop
  simp only [run, step, happ, if_true, hstop]

/-- The end-to-end scenario: `alice` subscribes to `news`, the broker delivers
`hello`, the application retrieves it and calls `mq_stop`; the pusher sends the
sentinel and the broker delivers it to the puller before the puller tests the
flag. After `mq_stop` has returned, `mq_retrieve` returns NULL. -/
theorem run_with_sentinel_delivered :
    (run 8192 demoSys
      [.subscribe "news".toList, .pusherTest, .pusherBody (some "HTTP/1.0 200 OK\r\n".toList),
       .pusherTest, .pusherBody (some "HTTP/1.0 200 OK\r\n".toList),
       .pullerTest,
       .pullerBody (some "HTTP/1.0 200 OK\r\nContent-Length: 5\r\n\r\nhello".toList) 4096,
       .retrieve, .pusherTest, .pullerTest, .stopFlag, .stopPublish,
       .pusherBody (some "HTTP/1.0 200 OK\r\n".toList),
       .pullerBody (some "HTTP/1.0 200 OK\r\nContent-Length: 8\r\n\r\nSHUTDOWN".toList)
         4096,
       .pusherTest, .pullerTest, .joinPusher, .joinPuller]).map
      (fun s => (s.app, receivedFrom .pusher s, incomingBodies s.heap s.mq,
        match mq_retrieve s.heap s.mq with
        | .ok (_, _, r) => some r
        | .error _ => none))
      = some (.stopped,
          ["PUT /subscription/alice/SHUTDOWN HTTP/1.0\r\n\r\n".toList,
           "PUT /subscription/alice/news HTTP/1.0\r\n\r\n".toList,
           "PUT /topic/SHUTDOWN HTTP/1.0\r\nContent-Length: 8\r\n\r\nSHUTDOWN".toList],
          [some "SHUTDOWN".toList], some none) := by
  rfl

/-! ## C11: the well-formedness invariant of the queue -/

theorem linked_append_right {h : Heap} : ∀ (a : List Ptr) {b : List Ptr},
    linked h (a ++ b) → linked h b := by
  intro a
  induction a with
  | nil =>
    intro b hl
    exact hl
  | cons x xs ih =>
    intro b hl
    exact ih hl.2

/-- Two null-terminated chains of links that start at the same cell are equal. -/
theorem linked_unique {h : Heap} : ∀ {a b : List Ptr},
    linked h a → linked h b → a.head? = b.head? → a = b := by
  intro a
  induction a with
  | nil =>
    intro b _ _ hh
    cases b with
    | nil => rfl
    | cons y ys => simp at hh
  | cons x xs ih =>
    intro b ha hb hh
    cases b with
    | nil => simp at hh
    | cons y ys =>
      simp only [List.head?_cons, Option.some.injEq] at hh
      subst hh
      have hnext : xs.head? = ys.head? := by
        have h1 := ha.1
        rw [hb.1] at h1
        exact (Option.some.inj h1).symm
      rw [ih ha.2 hb.2 hnext]

/-- A null-terminated chain of links visits no cell twice. -/
theorem linked_nodup {h : Heap} : ∀ {l : List Ptr}, linked h l → l.Nodup := by
  intro l
  induction l with
  | nil =>
    intro _
    exact List.nodup_nil
  | cons p ps ih =>
    intro hl
    refine List.nodup_cons.2 ⟨?_, ih hl.2⟩
    intro hmem
    obtain ⟨pre, t, hsplit⟩ := List.append_of_mem hmem
    have hsuf : linked h (p :: t) := by
      have h2 := hl.2
      rw [hsplit] at h2
      exact linked_append_right pre h2
    have hEq : p :: ps = p :: t := linked_unique hl hsuf rfl
    have hlen := congrArg List.length hEq
    rw [hsplit] at hlen
    simp only [List.length_cons, List.length_append] at hlen
    omega

/-- The well-formedness predicate says that the queue holds its contents. -/
theorem holds_of_wellFormed {h : Heap} {q : Queue} (hwf : WellFormed h q) :
    Holds h q (contents h q) := by
  obtain ⟨h0, _, hlen, hl, hlast⟩ := hwf
  refine ⟨linked_nodup hl, hl, hlen.symm, ?_, hlast.symm⟩
  cases hs : q.size with
  | zero =>
    have hhead : q.head = none := (h0.1 hs).1
    simp [contents, hs, walk, hhead]
  | succ n =>
    cases hh : q.head with
    | none =>
      simp [contents, hs, hh, walk] at hlen
    | some p =>
      simp [contents, hs, hh, walk]

/-- A queue that holds a list of requests is well formed. -/
theorem wellFormed_of_holds {h : Heap} {q : Queue} {l : List Ptr} (hq : Holds h q l) :
    WellFormed h q := by
  have hc := contents_of_holds hq
  obtain ⟨hnd, hl, hs, hh, ht⟩ := hq
  refine ⟨?_, ?_, by rw [hc, hs], by rw [hc]; exact hl, by rw [hc, ht]⟩
  · rw [hs, hh, ht]
    cases l with
    | nil => simp
    | cons a as => simp
  · rw [hs, hh, ht]
    cases l with
    | nil => simp
    | cons a as =>
      cases as with
      | nil => simp
      | cons b bs =>
        simp only [List.length_cons, List.head?_cons, ne_eq, not_false_eq_true,
          and_true, reduceCtorEq]
        constructor
        · intro hlen
          omega
        · intro hEq
          exfalso
          have hmem : a ∈ b :: bs := by
            have hlast : (b :: bs).getLast? = some a := by
              rw [List.getLast?_cons_cons] at hEq
              exact hEq.symm
            exact List.mem_of_getLast?_eq_some hlast
          exact (List.nodup_cons.1 hnd).1 hmem

/-- C11: the well-formedness predicate of the queue (`size == 0` iff `head` and
`tail` are null; `size == 1` iff `head == tail` non-null; the links from `head`
visit `size` requests, ending at `tail` with a null `next`) holds for the queue
of `queue_create` on every heap; `queue_push` of any live request that is not
in a well-formed queue returns a well-formed queue whose size is larger by
exactly 1; and `queue_pop` on any well-formed non-empty queue returns a
well-formed queue whose size is smaller by exactly 1. -/
theorem C11_well_formedness_invariant :
    (∀ h0, WellFormed h0 queue_create) ∧
    (∀ h q p, WellFormed h q → p ∉ contents h q → (deref h p).isSome →
      ∃ h1 q1, queue_push h q (some p) = .ok (h1, q1) ∧ WellFormed h1 q1 ∧
        q1.size = q.size + 1) ∧
    (∀ h q, WellFormed h q → q.size ≠ 0 →
      ∃ q1 r, queue_pop h q = .ok (q1, r) ∧ WellFormed h q1 ∧ q1.size + 1 = q.size) := by
  refine ⟨fun h0 => wellFormed_of_holds (holds_create h0), ?_, ?_⟩
  · intro h q p hwf hp hlive
    have hq := holds_of_wellFormed hwf
    obtain ⟨rq, hrq⟩ := Option.isSome_iff_exists.1 hlive
    obtain ⟨h1, q1, hpush, hq1, _, _, _⟩ := queue_push_holds hq hp hrq
    refine ⟨h1, q1, hpush, wellFormed_of_holds hq1, ?_⟩
    rw [hq1.2.2.1, hq.2.2.1]
    simp
  · intro h q hwf hne
    have hq := holds_of_wellFormed hwf
    cases hc : contents h q with
    | nil =>
      have hs := hq.2.2.1
      rw [hc] at hs
      exact absurd hs hne
    | cons a l =>
      rw [hc] at hq
      obtain ⟨q1, hpop, hq1⟩ := queue_pop_holds hq
      refine ⟨q1, some a, hpop, wellFormed_of_holds hq1, ?_⟩
      rw [hq1.2.2.1, hq.2.2.1]
      simp

/-- Witness for C11: the queue of `queue_create` on the empty heap; a push of
the live request at address 3 (with a stale link) on the two-request outgoing
queue of `demoUnsent`; and a pop on the queue that holds the only live request
of its heap (the state after the first push). -/
theorem C11_well_formedness_invariant_witness :
    WellFormed [] queue_create ∧
    (∃ h1 q1, queue_push (store (demoUnsent.heap ++ [none]) 3 ⟨none, none, none, some 1⟩)
        demoUnsent.mq.outgoing (some 3) = .ok (h1, q1) ∧ WellFormed h1 q1 ∧
      q1.size = demoUnsent.mq.outgoing.size + 1) ∧
    (∃ q1 r, queue_pop [some ⟨none, none, none, none⟩] ⟨some 0, some 0, 1⟩ = .ok (q1, r) ∧
      WellFormed [some ⟨none, none, none, none⟩] q1 ∧
      q1.size + 1 = (⟨some 0, some 0, 1⟩ : Queue).size) :=
  ⟨C11_well_formedness_invariant.1 [],
    C11_well_formedness_invariant.2.1
      (store (demoUnsent.heap ++ [none]) 3 ⟨none, none, none, some 1⟩)
      demoUnsent.mq.outgoing 3 (by decide) (by decide) (by decide),
    C11_well_formedness_invariant.2.2 [some ⟨none, none, none, none⟩] ⟨some 0, some 0, 1⟩
      (by decide) (by decide)⟩

/-- The first pop after the first push, on a heap whose only live request is in
the queue: the request is returned and the queue is again the empty
well-formed queue; and pushing the live request at address 3 on the
two-request queue of `demoUnsent` gives a well-formed queue of size 3. -/
theorem pop_and_push_examples :
    queue_pop [some ⟨none, none, none, none⟩] ⟨some 0, some 0, 1⟩
      = .ok (⟨none, none, 0⟩, some 0) ∧
    (match queue_push (store (demoUnsent.heap ++ [none]) 3 ⟨none, none, none, some 1⟩)
        demoUnsent.mq.outgoing (some 3) with
      | .ok (h1, q1) => decide (WellFormed h1 q1) && decide (q1.size = 3)
      | .error _ => false) = true := by
  constructor <;> rfl

/-- Pushing a request that is already in the queue breaks well-formedness:
pushing the head of the two-request queue of `demoUnsent` again links the tail
back to it and leaves `head == tail` with `size == 3`. -/
theorem push_of_queued_request_ill_formed :
    (match queue_push demoUnsent.heap demoUnsent.mq.outgoing (some 1) with
      | .ok (h1, q1) => decide (WellFormed h1 q1)
      | .error _ => true) = false := by
  rfl

end MQ
